import Mathlib

/-!
Shallow embedding and verification of the time-series alignment/fill engine of
`extract_odds_columns.py` and the schema-evolving CSV append logic of
`fetch_special_markets.py` from the probabilistic-computing-arbitrage
repository.  Python dicts are modelled as association lists with the bindings
in insertion order; `None` cells become `Option`; file rewrites become pure
state transformers.
-/

/-- A removed-row audit record: `filter_and_fill_data` stores the dropped row's
timestamp, its count of non-absent cells, and its original row index
(`extract_odds_columns.py`, lines 230-235). -/
structure RemovedRow where
  timestamp : Int
  non_empty_count : Nat
  index : Nat
deriving Repr, DecidableEq

/-- Cell lookup `columns[col][timestamp]` guarded by
`col in columns and timestamp in columns[col]`
(`extract_odds_columns.py`, line 209); a failed lookup is the absent cell. -/
def seriesLookup (columns : List (String × List (Int × Int))) (col : String)
    (t : Int) : Option Int :=
  match columns.lookup col with
  | none => none
  | some s => s.lookup t

/-- `sorted(all_timestamps)` where `all_timestamps` is a Python set
(`extract_odds_columns.py`, line 202): the distinct timestamps in ascending
order (Python's stable ascending sort, modelled by insertion sort). -/
def sortedTimestamps (all_timestamps : List Int) : List Int :=
  all_timestamps.dedup.insertionSort (· ≤ ·)

/-- The initial aligned matrix (`extract_odds_columns.py`, lines 204-213): one
row per sorted timestamp, one cell per column name after the leading
`timestamp` entry, each cell the series value at that timestamp or absent. -/
def initialMatrix (columns : List (String × List (Int × Int)))
    (all_timestamps : List Int) (column_names : List String) :
    List (Int × List (Option Int)) :=
  (sortedTimestamps all_timestamps).map
    (fun t => (t, column_names.tail.map (fun c => seriesLookup columns c t)))

/-- `non_empty_count` of one row (`extract_odds_columns.py`, line 218): the
number of non-absent cells, the timestamp excluded. -/
def rowCount (r : Int × List (Option Int)) : Nat :=
  (r.2.filter Option.isSome).length

/-- Forward-fill pass over one column (`extract_odds_columns.py`,
lines 249-277): walk the rows carrying `last_known_value`; an absent cell is
filled with it once one has been seen, and every non-absent cell updates it. -/
def ffillCol (last : Option Int) : List (Option Int) → List (Option Int)
  | [] => []
  | none :: rest =>
    match last with
    | some v => some v :: ffillCol (some v) rest
    | none => none :: ffillCol none rest
  | some v :: rest => some v :: ffillCol (some v) rest

/-- First non-absent value of a column together with its index
(`extract_odds_columns.py`, lines 281-287: the scan computing
`first_non_none_idx` and `first_non_none_value`). -/
def firstSomeIdx : List (Option Int) → Option (Nat × Int)
  | [] => none
  | none :: rest => (firstSomeIdx rest).map (fun p => (p.1 + 1, p.2))
  | some v :: _ => some (0, v)

/-- Backward-fill pass over one column (`extract_odds_columns.py`,
lines 289-309): when some cell is non-absent, every cell strictly before the
first non-absent index receives that first value.  Every cell before the first
non-absent index is absent, so the source's `is None` test on those cells
always succeeds and the conditional fill is a constant fill of the prefix. -/
def bfillCol (l : List (Option Int)) : List (Option Int) :=
  match firstSomeIdx l with
  | none => l
  | some (i, v) => ((l.take i).map (fun _ => some v)) ++ l.drop i

/-- `filtered_data` (`extract_odds_columns.py`, lines 221-229): the rows of
the initial matrix whose non-absent count strictly exceeds
`min_values_per_row`, collected by one `enumerate`d pass. -/
def filteredData (columns : List (String × List (Int × Int)))
    (all_timestamps : List Int) (column_names : List String)
    (min_values_per_row : Nat) : List (Int × List (Option Int)) :=
  ((initialMatrix columns all_timestamps column_names).enum.filter
    (fun x => decide (min_values_per_row < rowCount x.2))).map (·.2)

/-- `removed_rows` (`extract_odds_columns.py`, lines 230-235): the
complementary pass recording timestamp, non-absent count, and the original row
index of every dropped row. -/
def removedRows (columns : List (String × List (Int × Int)))
    (all_timestamps : List Int) (column_names : List String)
    (min_values_per_row : Nat) : List RemovedRow :=
  ((initialMatrix columns all_timestamps column_names).enum.filter
    (fun x => ! decide (min_values_per_row < rowCount x.2))).map
    (fun x => ⟨x.2.1, rowCount x.2, x.1⟩)

/-- Column `j` of the filtered matrix after the forward then backward fill
pass (`extract_odds_columns.py`, lines 249-309). -/
def filledColumn (columns : List (String × List (Int × Int)))
    (all_timestamps : List Int) (column_names : List String)
    (min_values_per_row : Nat) (j : Nat) : List (Option Int) :=
  bfillCol (ffillCol none
    ((filteredData columns all_timestamps column_names min_values_per_row).map
      (fun r => r.2.getD j none)))

/-- `filter_and_fill_data` (`extract_odds_columns.py`, lines 187-313), the
fill audit reduced to the removed-row records (the remaining report fields are
not touched by any claim).  Rows are (timestamp, cells).  The source's
per-column in-place fill loop touches each column independently, so the filled
matrix is rebuilt column-wise: cell `j` of output row `k` is entry `k` of the
forward+backward-filled column `j` of the filtered matrix. -/
def filter_and_fill_data (columns : List (String × List (Int × Int)))
    (all_timestamps : List Int) (column_names : List String)
    (min_values_per_row : Nat) :
    List (Int × List (Option Int)) × List RemovedRow :=
  let filtered_data := filteredData columns all_timestamps column_names min_values_per_row
  let n := column_names.tail.length
  let filledCols :=
    (List.range n).map (filledColumn columns all_timestamps column_names min_values_per_row)
  (filtered_data.enum.map
      (fun kr => (kr.2.1,
        (List.range n).map (fun j => (filledCols.getD j []).getD kr.1 none))),
   removedRows columns all_timestamps column_names min_values_per_row)

/-- CSV rendering of one filled cell (`extract_odds_columns.py`,
lines 515-519): a non-absent value is written with `str`, an absent one as the
empty string. -/
def renderCell (v : Option Int) : String :=
  match v with
  | some x => toString x
  | none => ""

/-- The rows surviving the sparsity filter (`extract_odds_columns.py`,
lines 221-235), characterized directly on the initial matrix: a row survives
exactly when its non-absent count strictly exceeds `min_values_per_row`. -/
def keptMatrix (columns : List (String × List (Int × Int)))
    (all_timestamps : List Int) (column_names : List String)
    (min_values_per_row : Nat) : List (Int × List (Option Int)) :=
  (initialMatrix columns all_timestamps column_names).filter
    (fun r => decide (min_values_per_row < rowCount r))

/-! ### History selection and series extraction (`extract_odds_columns.py`, lines 33-94) -/

/-- One scoring period of an event: an optional `history` dict keyed by market
family.  The selection logic (`extract_odds_columns.py`, lines 41-52) only
tests presence and truthiness (non-emptiness) of `history`, so the family
contents stay a type parameter. -/
structure Period (F : Type) where
  history : Option (List (String × F))
deriving DecidableEq

/-- One event: an optional `periods` dict, keys in iteration order
(`extract_odds_columns.py`, lines 38-45). -/
structure OddsEvent (F : Type) where
  periods : Option (List (String × Period F))
deriving DecidableEq

/-- The decoded JSON input: its list of events
(`extract_odds_columns.py`, lines 33-36). -/
structure OddsData (F : Type) where
  events : List (OddsEvent F)
deriving DecidableEq

/-- The history-selection head of `extract_odds_columns`
(`extract_odds_columns.py`, lines 33-52): fail when there are no events, when
the first event has no `periods`, or when no period has a truthy `history`;
otherwise return the key and history of the first period (in iteration order)
whose history is present and non-empty. -/
def selectHistory {F : Type} (data : OddsData F) :
    Except String (String × List (String × F)) :=
  match data.events with
  | [] => .error "No events found in JSON file"
  | event :: _ =>
    match event.periods with
    | none => .error "No periods found in event"
    | some periods =>
      match periods.find? (fun kp => ! (kp.2.history.getD []).isEmpty) with
      | some kp => .ok (kp.1, kp.2.history.getD [])
      | none => .error "No history section found in any period"

/-- One entry of a terminal history array: either a JSON list of numbers or
some other JSON value (`isinstance(item, list)` is the only type test the
source performs, `extract_odds_columns.py`, line 88). -/
inductive HistItem where
  | arr (elems : List Int)
  | notList
deriving DecidableEq

/-- Python dict assignment `d[k] = v` on an insertion-ordered dict: an
existing binding for `k` is overwritten in place, a new key is appended. -/
def dictInsert {α β : Type} [BEq α] (m : List (α × β)) (k : α) (v : β) :
    List (α × β) :=
  if m.any (fun p => p.1 == k) then
    m.map (fun p => if p.1 == k then (k, v) else p)
  else m ++ [(k, v)]

/-- `timestamp_odds` built from one terminal sub-array
(`extract_odds_columns.py`, lines 86-92, and the identical loops at
lines 119-125, 152-158, and 173-179): every item that is a list of length
greater than 1 contributes `item[0] ↦ item[1]`; every other item is
skipped. -/
def buildTimestampOdds (sub_array : List HistItem) : List (Int × Int) :=
  sub_array.foldl
    (fun m e =>
      match e with
      | .arr elems =>
        if 1 < elems.length then dictInsert m (elems.getD 0 0) (elems.getD 1 0) else m
      | .notList => m)
    []

/-- The (timestamp, value) pair one history entry contributes: defined only
for entries that are lists of length at least 2. -/
def goodPair (e : HistItem) : Option (Int × Int) :=
  match e with
  | .arr elems =>
    if 1 < elems.length then some (elems.getD 0 0, elems.getD 1 0) else none
  | .notList => none

/-! ### Output column ordering (`extract_odds_columns.py`, lines 443-486) -/

/-- Python `s.startswith(pre)`, on the underlying character lists. -/
def pyStartsWith (s pre : String) : Bool :=
  pre.toList.isPrefixOf s.toList

/-- Split a character list at every occurrence of `sep`
(Python `s.split(sep)` for a one-character separator). -/
def splitOnChar (sep : Char) : List Char → List (List Char)
  | [] => [[]]
  | c :: rest =>
    let r := splitOnChar sep rest
    if c = sep then [] :: r
    else
      match r with
      | [] => [[c]]
      | h :: t => (c :: h) :: t

/-- Python `s.split('_')`. -/
def pySplitU (s : String) : List String :=
  (splitOnChar '_' s.toList).map List.asString

/-- Python string comparison: lexicographic on code points, a strict prefix
comparing smaller. -/
def charListLe : List Char → List Char → Bool
  | [], _ => true
  | _ :: _, [] => false
  | a :: as, b :: bs =>
    if a.toNat < b.toNat then true
    else if b.toNat < a.toNat then false
    else charListLe as bs

/-- Python `a <= b` on strings. -/
def pyStrLe (a b : String) : Prop :=
  charListLe a.toList b.toList = true

instance pyStrLe.instDecidableRel : DecidableRel pyStrLe := fun a b => by
  unfold pyStrLe
  exact inferInstance

/-- Value of a digit string read left to right. -/
def digitsVal (ds : List Char) : Nat :=
  ds.foldl (fun n c => 10 * n + (c.toNat - 48)) 0

/-- Python `float(text)` on a plain decimal literal (optional sign, digits,
optional fractional part), modelled exactly as a rational; other inputs
`float` would accept (exponents, `inf`, underscores, surrounding whitespace)
are out of the modelled subset and yield `none`.  Every handicap and total
line the source ever feeds to `float` is a plain decimal literal. -/
def parseDec? (s : String) : Option ℚ :=
  let cs := s.toList
  let signed : ℚ × List Char :=
    match cs with
    | '-' :: r => (-1, r)
    | '+' :: r => (1, r)
    | r => (1, r)
  let ip := signed.2.takeWhile Char.isDigit
  let rest := signed.2.dropWhile Char.isDigit
  match rest with
  | [] => if ip.isEmpty then none else some (signed.1 * (digitsVal ip : ℚ))
  | '.' :: frac =>
    if frac.all Char.isDigit && !(ip.isEmpty && frac.isEmpty) then
      some (signed.1 *
        ((digitsVal ip : ℚ) + (digitsVal frac : ℚ) / ((10 : ℚ) ^ frac.length)))
    else none
  | _ => none

/-- `spread_sort_key` (`extract_odds_columns.py`, lines 455-464): on a name of
the form `spread_<handicap>_<side>` the key is the numeric handicap paired
with 0 for the home side and 1 otherwise; a parse failure or a missing third
part (Python's `ValueError` / `IndexError`) gives `(0, 0)`. -/
def spread_sort_key (x : String) : ℚ × Nat :=
  let parts := pySplitU x
  if 2 ≤ parts.length then
    match parseDec? (parts.getD 1 "") with
    | some v =>
      if 3 ≤ parts.length then (v, if parts.getD 2 "" = "home" then 0 else 1)
      else (0, 0)
    | none => (0, 0)
  else (0, 0)

/-- `totals_sort_key` (`extract_odds_columns.py`, lines 470-479): as for
spreads, with 0 for the over side and 1 otherwise. -/
def totals_sort_key (x : String) : ℚ × Nat :=
  let parts := pySplitU x
  if 2 ≤ parts.length then
    match parseDec? (parts.getD 1 "") with
    | some v =>
      if 3 ≤ parts.length then (v, if parts.getD 2 "" = "over" then 0 else 1)
      else (0, 0)
    | none => (0, 0)
  else (0, 0)

/-- Comparison by a `(rational, side) ` key, lexicographically: Python's tuple
comparison used by `list.sort(key=...)`. -/
def byKeyLe {α : Type} (f : α → ℚ × Nat) (a b : α) : Prop :=
  (f a).1 < (f b).1 ∨ ((f a).1 = (f b).1 ∧ (f a).2 ≤ (f b).2)

instance byKeyLe.instDecidableRel {α : Type} (f : α → ℚ × Nat) :
    DecidableRel (byKeyLe f) := fun a b => by
  unfold byKeyLe
  exact inferInstance

instance byKeyLe.instIsTotal {α : Type} (f : α → ℚ × Nat) :
    IsTotal α (byKeyLe f) where
  total a b := by
    unfold byKeyLe
    rcases lt_trichotomy (f a).1 (f b).1 with h | h | h
    · exact Or.inl (Or.inl h)
    · rcases Nat.le_total (f a).2 (f b).2 with h2 | h2
      · exact Or.inl (Or.inr ⟨h, h2⟩)
      · exact Or.inr (Or.inr ⟨h.symm, h2⟩)
    · exact Or.inr (Or.inl h)

instance byKeyLe.instIsTrans {α : Type} (f : α → ℚ × Nat) :
    IsTrans α (byKeyLe f) where
  trans a b c hab hbc := by
    unfold byKeyLe at hab hbc ⊢
    rcases hab with h1 | ⟨h1, h1b⟩
    · rcases hbc with h2 | ⟨h2, h2b⟩
      · exact Or.inl (h1.trans h2)
      · exact Or.inl (h2 ▸ h1)
    · rcases hbc with h2 | ⟨h2, h2b⟩
      · exact Or.inl (h1 ▸ h2)
      · exact Or.inr ⟨h1.trans h2, h1b.trans h2b⟩

/-- The full ordered header of the CSV output
(`extract_odds_columns.py`, lines 443-486): the time column first, then the
moneyline columns present (fixed order), then the spread columns sorted by
`spread_sort_key`, then the totals columns sorted by `totals_sort_key`, then
every other column in ascending string order, appended only when not already
present (`if col not in column_names`). -/
def output_column_names (columns : List (String × List (Int × Int))) :
    List String :=
  let preferred_order := ["money_line_home", "money_line_draw", "money_line_away"]
  let column_names0 :=
    ["timestamp"] ++ preferred_order.filter (fun c => (columns.lookup c).isSome)
  let spread_cols :=
    ((columns.map Prod.fst).filter (fun c => pyStartsWith c "spread_")).insertionSort
      (byKeyLe spread_sort_key)
  let totals_cols :=
    ((columns.map Prod.fst).filter (fun c => pyStartsWith c "totals_")).insertionSort
      (byKeyLe totals_sort_key)
  let column_names1 := column_names0 ++ spread_cols ++ totals_cols
  ((columns.map Prod.fst).insertionSort pyStrLe).foldl
    (fun acc col => if acc.contains col then acc else acc ++ [col]) column_names1

/-- Claim-level reading of the numeric handicap (or total line) in a column
name `family_<number>_<side>`. -/
def handicapOf (c : String) : ℚ :=
  (parseDec? ((pySplitU c).getD 1 "")).getD 0

/-- Claim-level side order for spread columns: home first. -/
def sideNumOf (c : String) : Nat :=
  if (pySplitU c).getD 2 "" = "home" then 0 else 1

/-- Claim-level side order for totals columns: over first. -/
def overNumOf (c : String) : Nat :=
  if (pySplitU c).getD 2 "" = "over" then 0 else 1

/-- A spread/totals column name the sort key fully understands: at least three
`_`-separated parts with a parseable decimal in the second. -/
def wellFormedNumCol (c : String) : Prop :=
  3 ≤ (pySplitU c).length ∧ (parseDec? ((pySplitU c).getD 1 "")).isSome

instance wellFormedNumCol.instDecidable (c : String) :
    Decidable (wellFormedNumCol c) := by
  unfold wellFormedNumCol
  exact inferInstance

/-! ### Text normalization (`fetch_special_markets.py`, lines 104-113) -/

/-- Python's non-overlapping left-to-right `str.replace` for a non-empty
pattern, with the character count of the scanned text as structural fuel:
every step consumes at least one character, so fuel equal to the text length
never runs out. -/
def pyReplaceFuel (pat rep : List Char) : Nat → List Char → List Char
  | 0, s => s
  | _ + 1, [] => []
  | fuel + 1, c :: cs =>
    if pat.isPrefixOf (c :: cs) then
      rep ++ pyReplaceFuel pat rep fuel ((c :: cs).drop pat.length)
    else c :: pyReplaceFuel pat rep fuel cs

/-- Python `s.replace(pat, rep)`: every non-overlapping occurrence replaced,
left to right; for the empty pattern Python inserts `rep` before every
character and at the end. -/
def pyReplace (s pat rep : String) : String :=
  if pat.toList.isEmpty then
    (rep.toList ++ s.toList.flatMap (fun c => c :: rep.toList)).asString
  else
    (pyReplaceFuel pat.toList rep.toList s.toList.length s.toList).asString

/-- The ASCII whitespace characters Python `str.strip` removes (its further
Unicode space classes never occur in this data). -/
def isPySpace (c : Char) : Bool :=
  c == ' ' || c == '\t' || c == '\n' || c == '\r' ||
    c == '\x0b' || c == '\x0c'

/-- Python `s.strip()`. -/
def pyStrip (s : String) : String :=
  (((s.toList.dropWhile isPySpace).reverse.dropWhile isPySpace).reverse).asString

/-- Python `s.lower()` on the ASCII range (category names in this data are
ASCII). -/
def lowerAscii (s : String) : String :=
  (s.toList.map Char.toLower).asString

/-- `_normalize_text` (`fetch_special_markets.py`, lines 104-113): empty or
missing text gives `""`; otherwise the home then away team names are replaced
by `"Home"`/`"Away"`, then, when the category is truthy and lowercases to
`"team props"`, every occurrence of `"Team Props - "` and then of
`"Team Props "` is removed, then every `"?"` is removed and the result is
stripped of surrounding whitespace. -/
def _normalize_text (text : Option String) (home_team away_team : String)
    (category : Option String) : String :=
  match text with
  | none => ""
  | some t =>
    if t = "" then ""
    else
      let cleaned := pyReplace (pyReplace t home_team "Home") away_team "Away"
      let isTeamProps : Bool :=
        match category with
        | some c => c != "" && lowerAscii c == "team props"
        | none => false
      let cleaned2 :=
        if isTeamProps then
          pyReplace (pyReplace cleaned "Team Props - " "") "Team Props " ""
        else cleaned
      pyStrip (pyReplace cleaned2 "?" "")

/-- Python `s.startswith(pre)`-based prefix removal. -/
def dropPrefixStr (s pre : String) : String :=
  if pyStartsWith s pre then (s.toList.drop pre.toList.length).asString else s

/-- The claim's reading of `_normalize_text`, for comparison: identical
pipeline except that, for a matching category, only a leading `"Team Props"`
prefix (with or without the dash) is removed rather than every occurrence. -/
def normalizePrefixOnly (text : Option String) (home_team away_team : String)
    (category : Option String) : String :=
  match text with
  | none => ""
  | some t =>
    if t = "" then ""
    else
      let cleaned := pyReplace (pyReplace t home_team "Home") away_team "Away"
      let isTeamProps : Bool :=
        match category with
        | some c => c != "" && lowerAscii c == "team props"
        | none => false
      let cleaned2 :=
        if isTeamProps then
          if pyStartsWith cleaned "Team Props - " then
            dropPrefixStr cleaned "Team Props - "
          else dropPrefixStr cleaned "Team Props "
        else cleaned
      pyStrip (pyReplace cleaned2 "?" "")

/-- Python `s.split(pat)` for a non-empty pattern, used to state replacement
as the spec words it: the pieces of `s` between the non-overlapping
occurrences of `pat`. -/
def splitOnList (pat : List Char) (s : List Char) : List (List Char) :=
  if hp : pat = [] then [s]
  else
    match s with
    | [] => [[]]
    | c :: cs =>
      if pat.isPrefixOf (c :: cs) then
        [] :: splitOnList pat ((c :: cs).drop pat.length)
      else List.modifyHead (c :: ·) (splitOnList pat cs)
termination_by s.length
decreasing_by
  · simp only [List.length_drop, List.length_cons]
    have : 0 < pat.length := List.length_pos.mpr hp
    omega
  · simp only [List.length_cons]
    omega

/-- Replacement of every occurrence, stated as the spec words it:
`rep.join(s.split(pat))`. -/
def specReplaceAll (s pat rep : String) : String :=
  (List.intercalate rep.toList (splitOnList pat.toList s.toList)).asString

/-- The amended claim's normalization pipeline, stated independently of the
source embedding: substitute every occurrence of the team names, remove every
occurrence of the `"Team Props"` markers anywhere in the text (not only a
prefix) for a matching category, drop every question-mark character, and trim
surrounding whitespace. -/
def normalizeSpecAmended (text : Option String) (home_team away_team : String)
    (category : Option String) : String :=
  match text with
  | none => ""
  | some t =>
    if t = "" then ""
    else
      let c1 := specReplaceAll (specReplaceAll t home_team "Home") away_team "Away"
      let isTeamProps : Bool :=
        match category with
        | some c => c != "" && lowerAscii c == "team props"
        | none => false
      let c2 :=
        if isTeamProps then
          specReplaceAll (specReplaceAll c1 "Team Props - " "") "Team Props " ""
        else c1
      pyStrip ((c2.toList.filter (fun ch => ch != '?')).asString)

/-! ### Schema-evolving CSV appends (`fetch_special_markets.py`, lines 161-312) -/

/-- A persisted CSV table: optional leading comment line, header, and the data
records as positional cell lists. -/
structure CsvFile where
  comment : Option String
  header : List String
  records : List (List String)
deriving DecidableEq, Repr

/-- `csv.DictReader` decoding of one record against a header: field `i` of
the header is bound to cell `i`, a missing cell reading as empty. -/
def decodeRecord : List String → List String → List (String × String)
  | [], _ => []
  | hd :: hs, rec => (hd, rec.headD "") :: decodeRecord hs rec.tail

/-- `csv.DictWriter` encoding of one keyed record along a header: the first
binding of each header field, or empty when the record lacks the field (its
other keys are dropped, as by `{k: v for k, v in r.items() if k in headers}`
plus the writer's `restval`). -/
def encodeRecord (headers : List String) (r : List (String × String)) :
    List String :=
  headers.map (fun h => ((r.lookup h).getD ""))

/-- `_append_long_csv` (`fetch_special_markets.py`, lines 203-252) as a state
transformer on the parsed file: no rows is a no-op; otherwise the existing
records are re-read (entirely empty ones dropped), the header becomes the
existing header (or the first row's keys for a fresh file) followed by unseen
first-row keys and then unseen existing-header fields, and the whole file is
rewritten as the match comment, the merged header, the re-encoded existing
records, and the new rows.  Python reads `rows[0]['home_team']` and
`rows[0]['away_team']` for the comment and raises `KeyError` on a first row
without them, a path this model collapses into a `getD ""` default: every
theorem and counterexample about this function therefore stays on inputs
whose first row carries both team fields, where model and source agree. -/
def _append_long_csv (existing : Option CsvFile)
    (rows : List (List (String × String))) (event_id : String) :
    Option CsvFile :=
  match rows with
  | [] => existing
  | r0 :: _ =>
    let match_line := "# Match: " ++ ((r0.lookup "home_team").getD "") ++ " vs "
      ++ ((r0.lookup "away_team").getD "") ++ " (event " ++ event_id ++ ")"
    let existing_headers := match existing with
      | none => []
      | some f => f.header
    let existing_rows : List (List (String × String)) := match existing with
      | none => []
      | some f => (f.records.map (decodeRecord f.header)).filter
          (fun r => r.any (fun kv => kv.2 != ""))
    let headers0 := if existing_headers.isEmpty then r0.map Prod.fst
      else existing_headers
    let headers1 := (r0.map Prod.fst).foldl
      (fun hs h => if hs.contains h then hs else hs ++ [h]) headers0
    let headers := existing_headers.foldl
      (fun hs h => if hs.contains h then hs else hs ++ [h]) headers1
    some ⟨some match_line, headers,
      existing_rows.map (fun r => encodeRecord headers r)
        ++ rows.map (fun r => encodeRecord headers r)⟩

/-- One flattened specials outcome, restricted to the fields the wide-form
pipeline reads (`fetch_special_markets.py`, lines 161-181 and 255-312): the
fetch-time key, the generated column key, the price (possibly null), and the
team names used for the comment line. -/
structure SpecialRow where
  fetched_at : String
  column_key : String
  price : Option String
  home_team : String
  away_team : String
deriving DecidableEq, Repr

/-- `pivot_outcomes_wide` (`fetch_special_markets.py`, lines 161-181): no rows
give empty headers and data; otherwise the headers are `fetched_at` followed
by the sorted distinct column keys, and the single data row is the first
row's fetch time followed by, per column, the price of the last row with
that column key (absent prices stay null until padding). -/
def pivot_outcomes_wide (rows : List SpecialRow) :
    List String × List (List (Option String)) :=
  match rows with
  | [] => ([], [])
  | r0 :: _ =>
    let fetch_time := r0.fetched_at
    let columns := ((rows.map (·.column_key)).dedup).insertionSort pyStrLe
    let row_map := rows.foldl (fun m r => dictInsert m r.column_key r.price)
      (columns.map (fun c => (c, (none : Option String))))
    ("fetched_at" :: columns,
      [some fetch_time :: columns.map (fun c => (row_map.lookup c).getD none)])

/-- `pad_row` (`fetch_special_markets.py`, lines 292-295): re-key a data row
from the new headers to the merged headers, an absent or null cell becoming
the empty string. -/
def padWideRow (new_headers headers : List String) (row : List (Option String)) :
    List String :=
  let row_map := new_headers.enum.foldl
    (fun m ih => dictInsert m ih.2 (row.getD ih.1 none)) []
  headers.map (fun h =>
    match row_map.lookup h with
    | some (some v) => v
    | _ => "")

/-- Re-alignment of an existing positional row to the merged headers
(`fetch_special_markets.py`, lines 297-302): cell of field `h` when `h` is an
existing header, empty for a newly introduced column. -/
def realignRecord (oldH newH : List String) (rec : List String) : List String :=
  newH.map (fun h =>
    match oldH.indexOf? h with
    | some i => rec.getD i ""
    | none => "")

/-- `_append_wide_csv` (`fetch_special_markets.py`, lines 255-312): a no-op
without rows or pivot headers; otherwise the merged header is the existing
header followed by unseen new headers, existing rows are re-aligned to it
(when both existing data and an existing header are present), the new pivot
rows are padded to it, and the file is rewritten. -/
def _append_wide_csv (existing : Option CsvFile)
    (wide : List String × List (List (Option String)))
    (rows : List SpecialRow) (event_id : String) : Option CsvFile :=
  match rows, wide.1 with
  | [], _ => existing
  | _ :: _, [] => existing
  | r0 :: _, _ :: _ =>
    let match_line := "# Match: " ++ r0.home_team ++ " vs " ++ r0.away_team
      ++ " (event " ++ event_id ++ ")"
    let new_headers := wide.1
    let existing_headers := match existing with
      | none => []
      | some f => f.header
    let existing_data := match existing with
      | none => []
      | some f => f.records
    let headers := new_headers.foldl
      (fun hs h => if hs.contains h then hs else hs ++ [h]) existing_headers
    let merged_existing :=
      if existing_data.isEmpty || existing_headers.isEmpty then []
      else existing_data.map (fun r => realignRecord existing_headers headers r)
    let merged_new := wide.2.map (fun row => padWideRow new_headers headers row)
    some ⟨some match_line, headers, merged_existing ++ merged_new⟩

/-- One polling run against the wide table, as `main` performs it
(`fetch_special_markets.py`, lines 415-418): pivot the flattened rows, then
append the pivoted snapshot. -/
def wideRun (s : Option CsvFile) (rows : List SpecialRow) (event_id : String) :
    Option CsvFile :=
  _append_wide_csv s (pivot_outcomes_wide rows) rows event_id

/-- The sorted distinct column keys one run contributes. -/
def runKeysSorted (rows : List SpecialRow) : List String :=
  ((rows.map (·.column_key)).dedup).insertionSort pyStrLe

/-- Spec-level header accumulation across runs: each run appends its sorted
new column keys after all columns of earlier runs. -/
def headerAccum (runs : List (List SpecialRow)) : List String :=
  runs.foldl
    (fun acc run => acc ++ (runKeysSorted run).filter (fun c => ! acc.contains c))
    []

/-! ### Helper lemmas about the fill passes -/

theorem ffillCol_length (last : Option Int) (l : List (Option Int)) :
    (ffillCol last l).length = l.length := by
  induction l generalizing last with
  | nil => rfl
  | cons x rest ih =>
    cases x with
    | none =>
      cases last with
      | none => simp [ffillCol, ih]
      | some v => simp [ffillCol, ih]
    | some v => simp [ffillCol, ih]

theorem firstSomeIdx_lt_length {l : List (Option Int)} {i : Nat} {v : Int}
    (h : firstSomeIdx l = some (i, v)) : i < l.length := by
  induction l generalizing i v with
  | nil => simp [firstSomeIdx] at h
  | cons x rest ih =>
    cases x with
    | none =>
      cases hf : firstSomeIdx rest with
      | none =>
        rw [firstSomeIdx, hf] at h
        simp at h
      | some p =>
        rw [firstSomeIdx, hf] at h
        have h2 : some (p.1 + 1, p.2) = some (i, v) := h
        injection h2 with h3
        have hi : p.1 + 1 = i := congrArg Prod.fst h3
        have := ih (i := p.1) (v := p.2) (by simp [hf])
        simp only [List.length_cons]
        omega
    | some w =>
      simp only [firstSomeIdx] at h
      cases h
      simp

theorem bfillCol_length (l : List (Option Int)) :
    (bfillCol l).length = l.length := by
  unfold bfillCol
  cases hf : firstSomeIdx l with
  | none => rfl
  | some p =>
    cases p with
    | mk i v =>
      have hi : i < l.length := firstSomeIdx_lt_length hf
      simp [List.length_take, List.length_drop, Nat.min_eq_left (Nat.le_of_lt hi)]
      omega

theorem ffillCol_some_all {v : Int} {l : List (Option Int)} :
    ∀ y ∈ ffillCol (some v) l, y.isSome := by
  induction l generalizing v with
  | nil => simp [ffillCol]
  | cons x rest ih =>
    cases x with
    | none =>
      intro y hy
      simp only [ffillCol, List.mem_cons] at hy
      rcases hy with rfl | hy
      · rfl
      · exact ih y hy
    | some w =>
      intro y hy
      simp only [ffillCol, List.mem_cons] at hy
      rcases hy with rfl | hy
      · rfl
      · exact ih y hy

theorem ffillCol_none_any {l : List (Option Int)}
    (h : ∃ x ∈ l, x.isSome) : ∃ y ∈ ffillCol none l, y.isSome := by
  induction l with
  | nil => simp at h
  | cons x rest ih =>
    cases x with
    | none =>
      obtain ⟨x', hx', hs⟩ := h
      rcases List.mem_cons.mp hx' with rfl | hmem
      · simp at hs
      · obtain ⟨y, hy, hys⟩ := ih ⟨x', hmem, hs⟩
        exact ⟨y, by simp [ffillCol, hy], hys⟩
    | some w =>
      exact ⟨some w, by simp [ffillCol], rfl⟩

theorem firstSomeIdx_isSome {l : List (Option Int)}
    (h : ∃ y ∈ l, y.isSome) : ∃ p, firstSomeIdx l = some p := by
  induction l with
  | nil => simp at h
  | cons x rest ih =>
    cases x with
    | none =>
      obtain ⟨y, hy, hys⟩ := h
      rcases List.mem_cons.mp hy with rfl | hmem
      · simp at hys
      · obtain ⟨p, hp⟩ := ih ⟨y, hmem, hys⟩
        exact ⟨(p.1 + 1, p.2), by simp [firstSomeIdx, hp]⟩
    | some w => exact ⟨(0, w), rfl⟩

theorem bfillCol_cons_none {f : List (Option Int)} {i : Nat} {v : Int}
    (h : firstSomeIdx f = some (i, v)) :
    bfillCol (none :: f) = some v :: bfillCol f := by
  have h' : firstSomeIdx (none :: f) = some (i + 1, v) := by
    simp [firstSomeIdx, h]
  simp [bfillCol, h, h', List.take_succ_cons, List.drop_succ_cons]

theorem bfill_ffill_all_some {l : List (Option Int)}
    (h : ∃ x ∈ l, x.isSome) : ∀ y ∈ bfillCol (ffillCol none l), y.isSome := by
  induction l with
  | nil => simp at h
  | cons x rest ih =>
    cases x with
    | some v =>
      intro y hy
      have hff : ffillCol none (some v :: rest) = some v :: ffillCol (some v) rest := rfl
      rw [hff] at hy
      have hfs : firstSomeIdx (some v :: ffillCol (some v) rest) = some (0, v) := rfl
      simp only [bfillCol, hfs, List.take_zero, List.map_nil, List.drop_zero,
        List.nil_append, List.mem_cons] at hy
      rcases hy with rfl | hy
      · rfl
      · exact ffillCol_some_all y hy
    | none =>
      intro y hy
      obtain ⟨x', hx', hs⟩ := h
      rcases List.mem_cons.mp hx' with rfl | hmem
      · simp at hs
      have hrest : ∃ x ∈ rest, x.isSome = true := ⟨x', hmem, hs⟩
      have hff : ffillCol none (none :: rest) = none :: ffillCol none rest := rfl
      rw [hff] at hy
      obtain ⟨p, hp⟩ := firstSomeIdx_isSome (ffillCol_none_any hrest)
      rw [bfillCol_cons_none (i := p.1) (v := p.2) (by simpa using hp)] at hy
      rcases List.mem_cons.mp hy with rfl | hy
      · rfl
      · exact ih hrest y hy

theorem ffillCol_none_of_all_none {l : List (Option Int)}
    (h : ∀ x ∈ l, x = none) : ffillCol none l = l := by
  induction l with
  | nil => rfl
  | cons x rest ih =>
    have hx : x = none := h x (by simp)
    subst hx
    simp only [ffillCol]
    rw [ih (fun x hx => h x (by simp [hx]))]

theorem firstSomeIdx_none_of_all_none {l : List (Option Int)}
    (h : ∀ x ∈ l, x = none) : firstSomeIdx l = none := by
  induction l with
  | nil => rfl
  | cons x rest ih =>
    have hx : x = none := h x (by simp)
    subst hx
    simp only [firstSomeIdx]
    rw [ih (fun x hx => h x (by simp [hx]))]
    rfl

theorem bfill_ffill_all_none {l : List (Option Int)}
    (h : ∀ x ∈ l, x = none) : bfillCol (ffillCol none l) = l := by
  rw [ffillCol_none_of_all_none h]
  unfold bfillCol
  rw [firstSomeIdx_none_of_all_none h]

/-! ### Indexing helper lemmas -/

theorem getD_map_range {α : Type} (f : Nat → α) {n j : Nat} (h : j < n) (d : α) :
    ((List.range n).map f).getD j d = f j := by
  rw [List.getD_eq_getElem?_getD, List.getElem?_map, List.getElem?_range h]
  rfl

theorem map_getD_range {α : Type} (l : List α) (d : α) :
    (List.range l.length).map (fun k => l.getD k d) = l := by
  induction l with
  | nil => rfl
  | cons a t ih =>
    have h1 : (List.range (a :: t).length).map (fun k => (a :: t).getD k d)
        = a :: (List.range t.length).map (fun k => t.getD k d) := by
      rw [List.length_cons, List.range_succ_eq_map, List.map_cons, List.map_map]
      refine congrArg (a :: ·) ?_
      refine List.map_congr_left (fun k _ => ?_)
      rfl
    rw [h1, ih]

theorem enumFrom_filter_snd {α : Type} (p : α → Bool) (n : Nat) (l : List α) :
    ((List.enumFrom n l).filter (fun x => p x.2)).map (·.2) = l.filter p := by
  induction l generalizing n with
  | nil => rfl
  | cons a t ih =>
    simp only [List.enumFrom, List.filter_cons]
    cases hp : p a with
    | true => simp [hp, ih]
    | false => simp [hp, ih]

theorem enum_filter_snd {α : Type} (p : α → Bool) (l : List α) :
    ((l.enum).filter (fun x => p x.2)).map (·.2) = l.filter p :=
  enumFrom_filter_snd p 0 l

theorem enum_map_fst_comp {α β : Type} (l : List α) (g : Nat → β) :
    l.enum.map (fun kr => g kr.1) = (List.range l.length).map g := by
  have hc : (fun (kr : Nat × α) => g kr.1) = g ∘ Prod.fst := rfl
  rw [hc, ← List.map_map, List.enum_map_fst]

/-! ### The output columns of filter_and_fill_data -/

theorem filteredData_eq_kept (c : List (String × List (Int × Int)))
    (ts : List Int) (names : List String) (minv : Nat) :
    filteredData c ts names minv = keptMatrix c ts names minv := by
  unfold filteredData keptMatrix
  exact enum_filter_snd (fun r => decide (minv < rowCount r)) (initialMatrix c ts names)

theorem fafd_fst (c : List (String × List (Int × Int))) (ts : List Int)
    (names : List String) (minv : Nat) :
    (filter_and_fill_data c ts names minv).1
      = (filteredData c ts names minv).enum.map
          (fun kr => (kr.2.1,
            (List.range names.tail.length).map
              (fun j => (((List.range names.tail.length).map
                (filledColumn c ts names minv)).getD j []).getD kr.1 none))) := rfl

theorem fafd_snd (c : List (String × List (Int × Int))) (ts : List Int)
    (names : List String) (minv : Nat) :
    (filter_and_fill_data c ts names minv).2 = removedRows c ts names minv := rfl

theorem filledColumn_length (c : List (String × List (Int × Int))) (ts : List Int)
    (names : List String) (minv : Nat) (j : Nat) :
    (filledColumn c ts names minv j).length = (filteredData c ts names minv).length := by
  unfold filledColumn
  rw [bfillCol_length, ffillCol_length, List.length_map]

theorem fafd_out_col (c : List (String × List (Int × Int))) (ts : List Int)
    (names : List String) (minv : Nat) {j : Nat} (hj : j < names.tail.length) :
    ((filter_and_fill_data c ts names minv).1).map (fun r => r.2.getD j none)
      = bfillCol (ffillCol none
          ((keptMatrix c ts names minv).map (fun r => r.2.getD j none))) := by
  rw [fafd_fst, List.map_map]
  have hC : ((List.range names.tail.length).map (filledColumn c ts names minv)).getD j []
      = filledColumn c ts names minv j := getD_map_range _ hj _
  have hstep : ∀ kr ∈ (filteredData c ts names minv).enum,
      ((fun r => r.2.getD j none) ∘ fun kr => ((kr.2.1 : Int),
        (List.range names.tail.length).map
          (fun j' => (((List.range names.tail.length).map
            (filledColumn c ts names minv)).getD j' []).getD kr.1 none))) kr
      = (filledColumn c ts names minv j).getD kr.1 none := by
    intro kr _
    dsimp only [Function.comp]
    rw [getD_map_range _ hj, hC]
  rw [List.map_congr_left hstep]
  calc (filteredData c ts names minv).enum.map
        (fun a => (filledColumn c ts names minv j).getD a.1 none)
      = (List.range (filteredData c ts names minv).length).map
          (fun k => (filledColumn c ts names minv j).getD k none) :=
        enum_map_fst_comp (filteredData c ts names minv)
          (fun k => (filledColumn c ts names minv j).getD k none)
    _ = filledColumn c ts names minv j := by
        rw [← filledColumn_length c ts names minv j, map_getD_range]
    _ = bfillCol (ffillCol none
          ((keptMatrix c ts names minv).map (fun r => r.2.getD j none))) := by
        unfold filledColumn
        rw [filteredData_eq_kept]

/-- C1: for every column of the aligned matrix, after the forward-fill pass
followed by the backward-fill pass in `filter_and_fill_data`, if any surviving
row has a non-absent value in that column then no surviving row has an absent
value in it; and a column with no non-absent value in any surviving row stays
absent in every surviving row, those cells being rendered as empty strings. -/
theorem fill_column_total_c1 (c : List (String × List (Int × Int))) (ts : List Int)
    (names : List String) (minv : Nat) {j : Nat} (hj : j < names.tail.length) :
    ((∃ r ∈ keptMatrix c ts names minv, (r.2.getD j none).isSome) →
      ∀ r ∈ (filter_and_fill_data c ts names minv).1, (r.2.getD j none).isSome)
    ∧ ((∀ r ∈ keptMatrix c ts names minv, r.2.getD j none = none) →
      ∀ r ∈ (filter_and_fill_data c ts names minv).1,
        r.2.getD j none = none ∧ renderCell (r.2.getD j none) = "") := by
  have hcol := fafd_out_col c ts names minv hj
  constructor
  · rintro ⟨r, hr, hs⟩ r' hr'
    have hmem : (r'.2.getD j none)
        ∈ ((filter_and_fill_data c ts names minv).1).map (fun r => r.2.getD j none) :=
      List.mem_map_of_mem _ hr'
    rw [hcol] at hmem
    exact bfill_ffill_all_some
      (l := (keptMatrix c ts names minv).map (fun r => r.2.getD j none))
      ⟨r.2.getD j none, List.mem_map_of_mem (fun r => r.2.getD j none) hr, hs⟩ _ hmem
  · intro hall r' hr'
    have hn : ∀ x ∈ (keptMatrix c ts names minv).map (fun r => r.2.getD j none),
        x = none := by
      intro x hx
      obtain ⟨r, hr, rfl⟩ := List.mem_map.mp hx
      exact hall r hr
    have hmem : (r'.2.getD j none)
        ∈ ((filter_and_fill_data c ts names minv).1).map (fun r => r.2.getD j none) :=
      List.mem_map_of_mem _ hr'
    rw [hcol, bfill_ffill_all_none hn] at hmem
    have hnone : r'.2.getD j none = none := hn _ hmem
    exact ⟨hnone, by rw [hnone]; rfl⟩

/-- Witness for C1: the column-index bound discharged at a concrete input
(one series, two timestamps, threshold 0). -/
theorem fill_column_total_c1_witness :
    (0 < (["timestamp", "a"] : List String).tail.length)
    ∧ (((∃ r ∈ keptMatrix [("a", [(1, 10)])] [1, 2] ["timestamp", "a"] 0,
          (r.2.getD 0 none).isSome) →
        ∀ r ∈ (filter_and_fill_data [("a", [(1, 10)])] [1, 2] ["timestamp", "a"] 0).1,
          (r.2.getD 0 none).isSome)
      ∧ ((∀ r ∈ keptMatrix [("a", [(1, 10)])] [1, 2] ["timestamp", "a"] 0,
          r.2.getD 0 none = none) →
        ∀ r ∈ (filter_and_fill_data [("a", [(1, 10)])] [1, 2] ["timestamp", "a"] 0).1,
          r.2.getD 0 none = none ∧ renderCell (r.2.getD 0 none) = "")) :=
  ⟨by decide, fill_column_total_c1 [("a", [(1, 10)])] [1, 2] ["timestamp", "a"] 0
    (by decide)⟩

/-- C2: a row of the timestamp-sorted initial matrix survives exactly when its
pre-fill count of non-absent cells strictly exceeds `min_values_per_row`;
every dropped row is recorded with its timestamp, its non-empty count, and its
original row index, and the fill passes see only the surviving rows.  In
particular a single row with 5 populated cells out of 30 columns under
threshold 20 is removed with `non_empty_count` 5. -/
theorem sparsity_filter_c2 (c : List (String × List (Int × Int))) (ts : List Int)
    (names : List String) (minv : Nat) :
    ((filter_and_fill_data c ts names minv).1.map Prod.fst
      = ((initialMatrix c ts names).filter
          (fun r => decide (minv < rowCount r))).map Prod.fst)
    ∧ ((filter_and_fill_data c ts names minv).2
      = ((initialMatrix c ts names).enum.filter
          (fun x => decide (rowCount x.2 ≤ minv))).map
          (fun x => RemovedRow.mk x.2.1 (rowCount x.2) x.1))
    ∧ ((filter_and_fill_data
          [("c1", [(100, 1)]), ("c2", [(100, 2)]), ("c3", [(100, 3)]),
           ("c4", [(100, 4)]), ("c5", [(100, 5)])] [100]
          ["timestamp", "c1", "c2", "c3", "c4", "c5", "c6", "c7", "c8", "c9",
           "c10", "c11", "c12", "c13", "c14", "c15", "c16", "c17", "c18", "c19",
           "c20", "c21", "c22", "c23", "c24", "c25", "c26", "c27", "c28", "c29",
           "c30"] 20).2
        = [RemovedRow.mk 100 5 0]) := by
  refine ⟨?_, ?_, by decide⟩
  · rw [fafd_fst]
    calc ((filteredData c ts names minv).enum.map
            (fun kr => ((kr.2.1 : Int),
              (List.range names.tail.length).map
                (fun j => (((List.range names.tail.length).map
                  (filledColumn c ts names minv)).getD j []).getD kr.1 none)))).map
            Prod.fst
        = (filteredData c ts names minv).enum.map (fun kr => kr.2.1) := by
          rw [List.map_map]
          rfl
      _ = ((filteredData c ts names minv).enum.map Prod.snd).map Prod.fst := by
          rw [List.map_map]
          rfl
      _ = (filteredData c ts names minv).map Prod.fst := by
          rw [List.enum_map_snd]
      _ = ((initialMatrix c ts names).filter
            (fun r => decide (minv < rowCount r))).map Prod.fst := by
          rw [filteredData_eq_kept]
          unfold keptMatrix
          rfl
  · rw [fafd_snd]
    unfold removedRows
    refine congrArg _ (List.filter_congr ?_)
    intro x _
    rw [← decide_not]
    exact decide_eq_decide.mpr (by omega)

/-! ### Dict-lookup lemmas for the series builder -/

theorem lookup_replace_self {m : List (Int × Int)} (k v : Int)
    (h : m.any (fun p => p.1 == k) = true) :
    (m.map (fun p => if p.1 == k then (k, v) else p)).lookup k = some v := by
  induction m with
  | nil => simp at h
  | cons p m' ih =>
    obtain ⟨pk, pv⟩ := p
    by_cases hp : pk = k
    · subst hp
      simp [List.lookup_cons]
    · have hpk : ((pk, pv).1 == k) = false := beq_eq_false_iff_ne.mpr hp
      rw [List.any_cons, hpk, Bool.false_or] at h
      have hk : (k == pk) = false := beq_eq_false_iff_ne.mpr (Ne.symm hp)
      simp only [List.map_cons, hpk, Bool.false_eq_true, if_false,
        List.lookup_cons, hk]
      exact ih h

theorem lookup_replace_ne {m : List (Int × Int)} (k v t : Int) (h : t ≠ k) :
    (m.map (fun p => if p.1 == k then (k, v) else p)).lookup t = m.lookup t := by
  induction m with
  | nil => rfl
  | cons p m' ih =>
    obtain ⟨pk, pv⟩ := p
    have htk : (t == k) = false := beq_eq_false_iff_ne.mpr h
    by_cases hp : pk = k
    · subst hp
      simp only [List.map_cons, beq_self_eq_true, if_true, List.lookup_cons, htk]
      exact ih
    · have hpk : ((pk, pv).1 == k) = false := beq_eq_false_iff_ne.mpr hp
      simp only [List.map_cons, hpk, Bool.false_eq_true, if_false, List.lookup_cons]
      cases htp : t == pk with
      | true => rfl
      | false => exact ih

theorem lookup_eq_none_of_any_false {m : List (Int × Int)} {k : Int}
    (h : m.any (fun p => p.1 == k) = false) : m.lookup k = none := by
  induction m with
  | nil => rfl
  | cons p m' ih =>
    obtain ⟨pk, pv⟩ := p
    rw [List.any_cons, Bool.or_eq_false_iff] at h
    have hk : (k == pk) = false := by
      rcases beq_eq_false_iff_ne.mp h.1 with hne
      exact beq_eq_false_iff_ne.mpr (Ne.symm hne)
    rw [List.lookup_cons, hk]
    exact ih h.2

theorem lookup_append_single (m : List (Int × Int)) (k v t : Int) :
    (m ++ [(k, v)]).lookup t
      = match m.lookup t with
        | some w => some w
        | none => if t == k then some v else none := by
  induction m with
  | nil =>
    simp only [List.nil_append, List.lookup_cons, List.lookup]
    cases t == k <;> rfl
  | cons p m' ih =>
    obtain ⟨pk, pv⟩ := p
    rw [List.cons_append, List.lookup_cons, List.lookup_cons]
    cases t == pk with
    | true => rfl
    | false => exact ih

theorem lookup_dictInsert (m : List (Int × Int)) (k v t : Int) :
    (dictInsert m k v).lookup t = if t = k then some v else m.lookup t := by
  unfold dictInsert
  by_cases hm : m.any (fun p => p.1 == k) = true
  · rw [if_pos hm]
    by_cases ht : t = k
    · subst ht
      rw [if_pos rfl]
      exact lookup_replace_self t v hm
    · rw [if_neg ht]
      exact lookup_replace_ne k v t ht
  · rw [if_neg hm, lookup_append_single]
    by_cases ht : t = k
    · subst ht
      have hnone : m.lookup t = none :=
        lookup_eq_none_of_any_false (Bool.eq_false_iff.mpr hm)
      rw [hnone, if_pos rfl]
      simp
    · rw [if_neg ht]
      have htk : (t == k) = false := beq_eq_false_iff_ne.mpr ht
      rw [htk]
      cases hml : m.lookup t with
      | some w => rfl
      | none => rfl

theorem buildTimestampOdds_append (l : List HistItem) (e : HistItem) :
    buildTimestampOdds (l ++ [e])
      = match goodPair e with
        | none => buildTimestampOdds l
        | some kv => dictInsert (buildTimestampOdds l) kv.1 kv.2 := by
  unfold buildTimestampOdds
  rw [List.foldl_append]
  cases e with
  | notList => rfl
  | arr elems =>
    by_cases hl : 1 < elems.length
    · simp [goodPair, hl]
    · simp [goodPair, hl]

/-- C8: the NamedSeries built from a terminal history array is exactly the
timestamp-to-value mapping taking, from each entry that is a list of length at
least 2, index 0 as timestamp and index 1 as value, with a later entry for the
same timestamp overwriting an earlier one; entries that are not lists or are
too short contribute nothing (and the builder is total, so no error can be
raised). -/
theorem series_last_write_wins_c8 (l : List HistItem) (t : Int) :
    (buildTimestampOdds l).lookup t
      = (((l.filterMap goodPair).filter (fun p => p.1 == t)).getLast?).map
          Prod.snd := by
  induction l using List.reverseRecOn with
  | nil => rfl
  | append_singleton l e ih =>
    rw [buildTimestampOdds_append, List.filterMap_append]
    cases hg : goodPair e with
    | none =>
      have h1 : List.filterMap goodPair [e] = [] := by
        simp [List.filterMap_cons, hg]
      rw [h1, List.append_nil]
      exact ih
    | some kv =>
      obtain ⟨k, v⟩ := kv
      have h1 : List.filterMap goodPair [e] = [(k, v)] := by
        simp [List.filterMap_cons, hg]
      rw [h1, List.filter_append, lookup_dictInsert]
      by_cases ht : t = k
      · subst ht
        have h2 : List.filter (fun p => p.1 == t) [((t : Int), v)] = [(t, v)] := by
          simp [List.filter_cons]
        rw [if_pos rfl, h2, List.getLast?_concat]
        rfl
      · have h2 : List.filter (fun p => p.1 == t) [(k, v)] = [] := by
          simp [List.filter_cons, beq_eq_false_iff_ne.mpr (Ne.symm ht)]
        rw [if_neg ht, h2, List.append_nil]
        exact ih

theorem not_isEmpty_eq_true_iff {α : Type} (l : List α) :
    ((!l.isEmpty) = true) ↔ l ≠ [] := by
  simp [List.isEmpty_iff]

theorem not_isEmpty_eq_false_iff {α : Type} (l : List α) :
    ((!l.isEmpty) = false) ↔ l = [] := by
  simp [List.isEmpty_iff]

/-- C4: history selection fails if and only if the input has no events, the
first event has no periods mapping, or no period contains a non-empty history
section; and a successful selection returns the key and history of the first
period, in the periods mapping's iteration order, whose history is present and
non-empty, with every earlier period lacking one. -/
theorem missing_data_error_c4 {F : Type} (data : OddsData F) :
    ((∃ e, selectHistory data = .error e) ↔
      (data.events = []
        ∨ (∃ ev rest, data.events = ev :: rest ∧ ev.periods = none)
        ∨ (∃ ev rest periods, data.events = ev :: rest
            ∧ ev.periods = some periods
            ∧ ∀ kp ∈ periods, kp.2.history.getD [] = [])))
    ∧ (∀ (k : String) (hist : List (String × F)),
        selectHistory data = .ok (k, hist) ↔
          ∃ ev rest periods pre kp post,
            data.events = ev :: rest ∧ ev.periods = some periods
            ∧ periods = pre ++ kp :: post
            ∧ (∀ q ∈ pre, q.2.history.getD [] = [])
            ∧ kp.2.history.getD [] ≠ []
            ∧ k = kp.1 ∧ hist = kp.2.history.getD []) := by
  obtain ⟨events⟩ := data
  cases events with
  | nil =>
    constructor
    · constructor
      · intro _
        exact Or.inl rfl
      · intro _
        exact ⟨"No events found in JSON file", rfl⟩
    · intro k hist
      constructor
      · intro hok
        cases hok
      · rintro ⟨ev, rest, _, _, _, _, h1, -⟩
        cases h1
  | cons ev rest =>
    cases hper : ev.periods with
    | none =>
      constructor
      · constructor
        · intro _
          exact Or.inr (Or.inl ⟨ev, rest, rfl, hper⟩)
        · intro _
          exact ⟨"No periods found in event", by simp [selectHistory, hper]⟩
      · intro k hist
        constructor
        · intro hok
          simp [selectHistory, hper] at hok
        · rintro ⟨ev', rest', periods', pre, kp, post, h1, h2, -⟩
          injection h1 with h1a h1b
          subst h1a
          rw [hper] at h2
          cases h2
    | some periods =>
      cases hf : periods.find? (fun kp => ! (kp.2.history.getD []).isEmpty) with
      | none =>
        constructor
        · constructor
          · intro _
            refine Or.inr (Or.inr ⟨ev, rest, periods, rfl, hper, ?_⟩)
            intro kp hkp
            have hnp := List.find?_eq_none.mp hf kp hkp
            exact (not_isEmpty_eq_false_iff _).mp (Bool.eq_false_iff.mpr hnp)
          · intro _
            exact ⟨"No history section found in any period",
              by simp [selectHistory, hper, hf]⟩
        · intro k hist
          constructor
          · intro hok
            simp [selectHistory, hper, hf] at hok
          · rintro ⟨ev', rest', periods', pre, kp, post, h1, h2, h3, h4, h5, -⟩
            injection h1 with h1a h1b
            subst h1a
            rw [hper] at h2
            injection h2 with h2a
            subst h2a
            have hmem : kp ∈ periods := by
              rw [h3]
              exact List.mem_append_right pre (List.mem_cons_self kp post)
            have hnp := List.find?_eq_none.mp hf kp hmem
            exact absurd ((not_isEmpty_eq_false_iff _).mp
              (Bool.eq_false_iff.mpr hnp)) h5
      | some kp =>
        have hchar := List.find?_eq_some.mp hf
        obtain ⟨hpkp, pre, post, hsplit, hpre⟩ := hchar
        constructor
        · constructor
          · rintro ⟨e, he⟩
            simp [selectHistory, hper, hf] at he
          · rintro (h1 | ⟨ev', rest', h1, h2⟩ | ⟨ev', rest', periods', h1, h2, h3⟩)
            · cases h1
            · injection h1 with h1a h1b
              subst h1a
              rw [hper] at h2
              cases h2
            · injection h1 with h1a h1b
              subst h1a
              rw [hper] at h2
              injection h2 with h2a
              subst h2a
              have hmem : kp ∈ periods := List.mem_of_find?_eq_some hf
              have hemp := h3 kp hmem
              have := (not_isEmpty_eq_true_iff _).mp hpkp
              exact absurd hemp this
        · intro k hist
          constructor
          · intro hok
            have hok' : Except.ok (ε := String) (kp.1, kp.2.history.getD [])
                = Except.ok (k, hist) := by
              rw [← hok]
              simp [selectHistory, hper, hf]
            injection hok' with hpair
            have hk : k = kp.1 := (congrArg Prod.fst hpair).symm
            have hh : hist = kp.2.history.getD [] := (congrArg Prod.snd hpair).symm
            refine ⟨ev, rest, periods, pre, kp, post, rfl, hper, hsplit, ?_, ?_, hk, hh⟩
            · intro q hq
              have hq' := hpre q hq
              rw [Bool.not_eq_eq_eq_not, Bool.not_true] at hq'
              exact (not_isEmpty_eq_false_iff _).mp hq'
            · exact (not_isEmpty_eq_true_iff _).mp hpkp
          · rintro ⟨ev', rest', periods', pre', kp', post', h1, h2, h3, h4, h5,
              h6, h7⟩
            injection h1 with h1a h1b
            subst h1a
            rw [hper] at h2
            injection h2 with h2a
            subst h2a
            have hf' : periods.find? (fun kp => ! (kp.2.history.getD []).isEmpty)
                = some kp' := by
              refine List.find?_eq_some.mpr ⟨?_, pre', post', h3, ?_⟩
              · exact (not_isEmpty_eq_true_iff _).mpr h5
              · intro a ha
                rw [Bool.not_eq_eq_eq_not, Bool.not_true]
                exact (not_isEmpty_eq_false_iff _).mpr (h4 a ha)
            rw [hf] at hf'
            injection hf' with hkp
            subst hkp
            subst h6
            subst h7
            simp [selectHistory, hper, hf]

/-! ### Lemmas for the output column order -/

theorem spread_sort_key_eq {c : String} (h : wellFormedNumCol c) :
    spread_sort_key c = (handicapOf c, sideNumOf c) := by
  obtain ⟨h3, hsome⟩ := h
  obtain ⟨v, hv⟩ := Option.isSome_iff_exists.mp hsome
  unfold spread_sort_key handicapOf sideNumOf
  simp only [if_pos (show 2 ≤ (pySplitU c).length by omega), if_pos h3]
  rw [hv]
  rfl

theorem totals_sort_key_eq {c : String} (h : wellFormedNumCol c) :
    totals_sort_key c = (handicapOf c, overNumOf c) := by
  obtain ⟨h3, hsome⟩ := h
  obtain ⟨v, hv⟩ := Option.isSome_iff_exists.mp hsome
  unfold totals_sort_key handicapOf overNumOf
  simp only [if_pos (show 2 ≤ (pySplitU c).length by omega), if_pos h3]
  rw [hv]
  rfl

theorem byKeyLe_congr {α : Type} {f g : α → ℚ × Nat} {a b : α}
    (ha : f a = g a) (hb : f b = g b) (h : byKeyLe f a b) : byKeyLe g a b := by
  unfold byKeyLe at h ⊢
  rw [ha, hb] at h
  exact h

theorem charListLe_total : ∀ as bs : List Char,
    charListLe as bs = true ∨ charListLe bs as = true := by
  intro as
  induction as with
  | nil => intro bs; exact Or.inl rfl
  | cons a as ih =>
    intro bs
    cases bs with
    | nil => exact Or.inr rfl
    | cons b bs =>
      by_cases hab : a.toNat < b.toNat
      · exact Or.inl (by simp [charListLe, hab])
      · by_cases hba : b.toNat < a.toNat
        · exact Or.inr (by simp [charListLe, hba])
        · rcases ih bs with h | h
          · exact Or.inl (by simp [charListLe, hab, hba, h])
          · exact Or.inr (by simp [charListLe, hab, hba, h])

theorem charListLe_trans : ∀ as bs cs : List Char,
    charListLe as bs = true → charListLe bs cs = true →
    charListLe as cs = true := by
  intro as
  induction as with
  | nil => intro bs cs _ _; rfl
  | cons a as ih =>
    intro bs cs hab hbc
    cases bs with
    | nil => simp [charListLe] at hab
    | cons b bs =>
      cases cs with
      | nil => simp [charListLe] at hbc
      | cons c cs =>
        simp only [charListLe] at hab hbc ⊢
        by_cases h1 : a.toNat < b.toNat
        · by_cases h2 : b.toNat < c.toNat
          · simp [show a.toNat < c.toNat by omega]
          · by_cases h3 : c.toNat < b.toNat
            · simp [h2, h3] at hbc
            · simp [show a.toNat < c.toNat by omega]
        · by_cases h1b : b.toNat < a.toNat
          · simp [h1, h1b] at hab
          · by_cases h2 : b.toNat < c.toNat
            · simp [show a.toNat < c.toNat by omega]
            · by_cases h3 : c.toNat < b.toNat
              · simp [h2, h3] at hbc
              · have hac : ¬ a.toNat < c.toNat := by omega
                have hca : ¬ c.toNat < a.toNat := by omega
                simp only [h1, h1b, if_false, if_neg hac, if_neg hca] at hab ⊢
                simp only [h2, h3, if_false, if_neg h2, if_neg h3] at hbc
                exact ih bs cs hab hbc

instance pyStrLe.instIsTotal : IsTotal String pyStrLe where
  total a b := charListLe_total a.toList b.toList

instance pyStrLe.instIsTrans : IsTrans String pyStrLe where
  trans a b c := charListLe_trans a.toList b.toList c.toList

theorem foldl_append_not_contains {l : List String} (hnd : l.Nodup)
    (init : List String) :
    l.foldl (fun acc col => if acc.contains col then acc else acc ++ [col]) init
      = init ++ l.filter (fun c => ! init.contains c) := by
  induction l generalizing init with
  | nil => simp
  | cons c l' ih =>
    rw [List.nodup_cons] at hnd
    rw [List.foldl_cons, List.filter_cons]
    by_cases hmem : init.contains c
    · rw [if_pos hmem, ih hnd.2 init, hmem]
      rfl
    · have hmem' : init.contains c = false := Bool.eq_false_iff.mpr hmem
      rw [if_neg hmem, ih hnd.2 (init ++ [c]), hmem']
      have hfeq : l'.filter (fun x => ! (init ++ [c]).contains x)
          = l'.filter (fun x => ! init.contains x) := by
        apply List.filter_congr
        intro x hx
        have hxc : x ≠ c := fun he => hnd.1 (he ▸ hx)
        have h1 : (init ++ [c]).contains x = init.contains x := by
          simp [List.elem_eq_mem, hxc]
        rw [h1]
      rw [hfeq, List.append_assoc]
      rfl

theorem output_column_names_eq (columns : List (String × List (Int × Int))) :
    output_column_names columns
      = ((columns.map Prod.fst).insertionSort pyStrLe).foldl
          (fun acc col => if acc.contains col then acc else acc ++ [col])
          (((["timestamp"]
            ++ (["money_line_home", "money_line_draw", "money_line_away"].filter
                (fun c => (columns.lookup c).isSome)))
            ++ ((columns.map Prod.fst).filter
                (fun c => pyStartsWith c "spread_")).insertionSort
                (byKeyLe spread_sort_key))
            ++ ((columns.map Prod.fst).filter
                (fun c => pyStartsWith c "totals_")).insertionSort
                (byKeyLe totals_sort_key)) := by
  rfl

/-- C7: the output column order is the timestamp column, then the moneyline
columns present in the fixed home/draw/away order, then the spread columns
sorted ascending by numeric handicap with home before away at equal handicap,
then the totals columns sorted ascending by numeric line with over before
under at equal line, then all remaining columns sorted lexicographically; the
embedding is a pure function of its input, so the order is deterministic. -/
theorem output_order_c7 (columns : List (String × List (Int × Int)))
    (hnd : (columns.map Prod.fst).Nodup)
    (hwfS : ∀ c ∈ columns.map Prod.fst,
      pyStartsWith c "spread_" = true → wellFormedNumCol c)
    (hwfT : ∀ c ∈ columns.map Prod.fst,
      pyStartsWith c "totals_" = true → wellFormedNumCol c) :
    ∃ sp tos ot,
      output_column_names columns
        = "timestamp"
          :: ((["money_line_home", "money_line_draw", "money_line_away"].filter
              (fun c => (columns.lookup c).isSome)) ++ sp ++ tos ++ ot)
      ∧ sp.Perm ((columns.map Prod.fst).filter (fun c => pyStartsWith c "spread_"))
      ∧ sp.Sorted (byKeyLe (fun c => (handicapOf c, sideNumOf c)))
      ∧ tos.Perm ((columns.map Prod.fst).filter (fun c => pyStartsWith c "totals_"))
      ∧ tos.Sorted (byKeyLe (fun c => (handicapOf c, overNumOf c)))
      ∧ ot.Sorted pyStrLe
      ∧ (∀ x, x ∈ ot ↔ x ∈ columns.map Prod.fst
          ∧ x ∉ ("timestamp"
            :: ((["money_line_home", "money_line_draw", "money_line_away"].filter
                (fun c => (columns.lookup c).isSome)) ++ sp ++ tos))) := by
  classical
  set keys := columns.map Prod.fst with hkeys
  set ml := ["money_line_home", "money_line_draw", "money_line_away"].filter
    (fun c => (columns.lookup c).isSome) with hml
  set sp := ((keys.filter (fun c => pyStartsWith c "spread_")).insertionSort
    (byKeyLe spread_sort_key)) with hsp
  set tot := ((keys.filter (fun c => pyStartsWith c "totals_")).insertionSort
    (byKeyLe totals_sort_key)) with htot
  set cn1 := ((["timestamp"] ++ ml) ++ sp) ++ tot with hcn1
  have hndSorted : (keys.insertionSort pyStrLe).Nodup :=
    ((List.perm_insertionSort pyStrLe keys).nodup_iff).mpr hnd
  refine ⟨sp, tot, (keys.insertionSort pyStrLe).filter
    (fun c => ! cn1.contains c), ?_, ?_, ?_, ?_, ?_, ?_, ?_⟩
  · rw [output_column_names_eq columns,
      foldl_append_not_contains hndSorted]
    simp only [hcn1, List.append_assoc, List.cons_append, List.nil_append]
  · exact List.perm_insertionSort _ _
  · have hs := List.sorted_insertionSort (byKeyLe spread_sort_key)
      (keys.filter (fun c => pyStartsWith c "spread_"))
    refine hs.imp_of_mem ?_
    intro a b ha hb hab
    have hma := ((List.perm_insertionSort (byKeyLe spread_sort_key) _).mem_iff).mp ha
    have hmb := ((List.perm_insertionSort (byKeyLe spread_sort_key) _).mem_iff).mp hb
    rw [List.mem_filter] at hma hmb
    exact byKeyLe_congr (spread_sort_key_eq (hwfS a hma.1 hma.2))
      (spread_sort_key_eq (hwfS b hmb.1 hmb.2)) hab
  · exact List.perm_insertionSort _ _
  · have hs := List.sorted_insertionSort (byKeyLe totals_sort_key)
      (keys.filter (fun c => pyStartsWith c "totals_"))
    refine hs.imp_of_mem ?_
    intro a b ha hb hab
    have hma := ((List.perm_insertionSort (byKeyLe totals_sort_key) _).mem_iff).mp ha
    have hmb := ((List.perm_insertionSort (byKeyLe totals_sort_key) _).mem_iff).mp hb
    rw [List.mem_filter] at hma hmb
    exact byKeyLe_congr (totals_sort_key_eq (hwfT a hma.1 hma.2))
      (totals_sort_key_eq (hwfT b hmb.1 hmb.2)) hab
  · exact (List.sorted_insertionSort pyStrLe keys).filter _
  · intro x
    rw [List.mem_filter,
      (List.perm_insertionSort pyStrLe keys).mem_iff]
    constructor
    · rintro ⟨hx1, hx2⟩
      refine ⟨hx1, ?_⟩
      intro hmem
      have : x ∈ cn1 := by
        rw [hcn1]
        simpa [List.append_assoc] using hmem
      simp [List.elem_eq_mem, this] at hx2
    · rintro ⟨hx1, hx2⟩
      refine ⟨hx1, ?_⟩
      have : x ∉ cn1 := by
        rw [hcn1]
        intro hc
        exact hx2 (by simpa [List.append_assoc] using hc)
      simp [List.elem_eq_mem, this]

/-- Witness for C7: the no-duplicate and well-formedness hypotheses discharged
at a concrete column dict with moneyline, spread, totals, and one extra
column. -/
theorem output_order_c7_witness :
    (([("money_line_home", ([] : List (Int × Int))), ("spread_-0.5_away", []),
        ("spread_-0.5_home", []), ("totals_2.5_over", []),
        ("alpha", [])].map Prod.fst).Nodup)
    ∧ (∀ c ∈ [("money_line_home", ([] : List (Int × Int))),
        ("spread_-0.5_away", []), ("spread_-0.5_home", []),
        ("totals_2.5_over", []), ("alpha", [])].map Prod.fst,
        pyStartsWith c "spread_" = true → wellFormedNumCol c)
    ∧ (∀ c ∈ [("money_line_home", ([] : List (Int × Int))),
        ("spread_-0.5_away", []), ("spread_-0.5_home", []),
        ("totals_2.5_over", []), ("alpha", [])].map Prod.fst,
        pyStartsWith c "totals_" = true → wellFormedNumCol c)
    ∧ (∃ sp tos ot,
        output_column_names [("money_line_home", ([] : List (Int × Int))),
          ("spread_-0.5_away", []), ("spread_-0.5_home", []),
          ("totals_2.5_over", []), ("alpha", [])]
          = "timestamp"
            :: ((["money_line_home", "money_line_draw", "money_line_away"].filter
                (fun c => (([("money_line_home", ([] : List (Int × Int))),
                  ("spread_-0.5_away", []), ("spread_-0.5_home", []),
                  ("totals_2.5_over", []), ("alpha", [])]).lookup c).isSome))
            ++ sp ++ tos ++ ot)
        ∧ sp.Perm (([("money_line_home", ([] : List (Int × Int))),
            ("spread_-0.5_away", []), ("spread_-0.5_home", []),
            ("totals_2.5_over", []), ("alpha", [])].map Prod.fst).filter
            (fun c => pyStartsWith c "spread_"))
        ∧ sp.Sorted (byKeyLe (fun c => (handicapOf c, sideNumOf c)))
        ∧ tos.Perm (([("money_line_home", ([] : List (Int × Int))),
            ("spread_-0.5_away", []), ("spread_-0.5_home", []),
            ("totals_2.5_over", []), ("alpha", [])].map Prod.fst).filter
            (fun c => pyStartsWith c "totals_"))
        ∧ tos.Sorted (byKeyLe (fun c => (handicapOf c, overNumOf c)))
        ∧ ot.Sorted pyStrLe
        ∧ (∀ x, x ∈ ot ↔ x ∈ [("money_line_home", ([] : List (Int × Int))),
            ("spread_-0.5_away", []), ("spread_-0.5_home", []),
            ("totals_2.5_over", []), ("alpha", [])].map Prod.fst
            ∧ x ∉ ("timestamp"
              :: ((["money_line_home", "money_line_draw", "money_line_away"].filter
                  (fun c => (([("money_line_home", ([] : List (Int × Int))),
                    ("spread_-0.5_away", []), ("spread_-0.5_home", []),
                    ("totals_2.5_over", []), ("alpha", [])]).lookup c).isSome))
              ++ sp ++ tos)))) :=
  ⟨by decide, by decide, by decide,
    output_order_c7 [("money_line_home", ([] : List (Int × Int))),
      ("spread_-0.5_away", []), ("spread_-0.5_home", []),
      ("totals_2.5_over", []), ("alpha", [])]
      (by decide) (by decide) (by decide)⟩

/-- C10: calling either append entry point with no new rows (or, for the wide
form, an empty pivot header) returns the persisted table state unchanged:
comment, header, and records are all left as they were and nothing is
written. -/
theorem empty_append_noop_c10 :
    (∀ (existing : Option CsvFile) (eid : String),
      _append_long_csv existing [] eid = existing)
    ∧ (∀ (existing : Option CsvFile)
        (wide : List String × List (List (Option String))) (eid : String),
      _append_wide_csv existing wide [] eid = existing)
    ∧ (∀ (existing : Option CsvFile) (rows : List SpecialRow)
        (d : List (List (Option String))) (eid : String),
      _append_wide_csv existing ([], d) rows eid = existing) := by
  refine ⟨fun e eid => rfl, fun e w eid => rfl, fun e rows d eid => ?_⟩
  cases rows with
  | nil => rfl
  | cons r rs => rfl

/-- Counterexample to C9 as stated: with category `"team props"`, the source
removes the occurrence of `"Team Props - "` in the middle of the label, not
only a leading prefix, so the prefix-removal reading of the claim disagrees
with the code on this input. -/
theorem normalize_c9_counterexample :
    _normalize_text (some "Alpha Team Props - Beta") "H1" "A1" (some "team props")
      = "Alpha Beta"
    ∧ normalizePrefixOnly (some "Alpha Team Props - Beta") "H1" "A1"
        (some "team props")
      = "Alpha Team Props - Beta"
    ∧ _normalize_text (some "Alpha Team Props - Beta") "H1" "A1" (some "team props")
      ≠ normalizePrefixOnly (some "Alpha Team Props - Beta") "H1" "A1"
        (some "team props") :=
  ⟨by decide, by decide, by decide⟩

/-! ### Replace-all equivalences for the amended C9 -/

theorem splitOnList_ne_nil (pat : List Char) (s : List Char) :
    splitOnList pat s ≠ [] := by
  have H : ∀ (n : Nat) (s : List Char), s.length ≤ n → splitOnList pat s ≠ [] := by
    intro n
    induction n with
    | zero =>
      intro s hs
      have hs0 : s = [] := List.length_eq_zero.mp (Nat.le_zero.mp hs)
      subst hs0
      rw [splitOnList.eq_def]
      by_cases hp : pat = []
      · simp [hp]
      · simp [hp]
    | succ n ih =>
      intro s hs
      rw [splitOnList.eq_def]
      by_cases hp : pat = []
      · simp [hp]
      · rw [dif_neg hp]
        cases s with
        | nil => simp
        | cons c cs =>
          by_cases hpre : pat.isPrefixOf (c :: cs) = true
          · simp [hpre]
          · simp only [hpre, Bool.false_eq_true, if_false]
            have hcs := ih cs (by
              simp only [List.length_cons] at hs
              omega)
            cases hsc : splitOnList pat cs with
            | nil => exact absurd hsc hcs
            | cons h t => simp [List.modifyHead]
  exact H s.length s le_rfl

theorem intercalate_cons_of_ne_nil (sep x : List Char) {l : List (List Char)}
    (h : l ≠ []) :
    List.intercalate sep (x :: l) = x ++ sep ++ List.intercalate sep l := by
  cases l with
  | nil => exact absurd rfl h
  | cons y t =>
    simp [List.intercalate, List.intersperse, List.append_assoc]

theorem intercalate_modifyHead (sep : List Char) (c : Char) (h : List Char)
    (t : List (List Char)) :
    List.intercalate sep ((c :: h) :: t) = c :: List.intercalate sep (h :: t) := by
  cases t with
  | nil => simp [List.intercalate, List.intersperse]
  | cons y t => simp [List.intercalate, List.intersperse]

theorem pyReplaceFuel_eq_intercalate (pat rep : List Char) (hp : pat ≠ []) :
    ∀ (fuel : Nat) (s : List Char), s.length ≤ fuel →
      pyReplaceFuel pat rep fuel s
        = List.intercalate rep (splitOnList pat s) := by
  intro fuel
  induction fuel with
  | zero =>
    intro s hs
    have hs0 : s = [] := List.length_eq_zero.mp (Nat.le_zero.mp hs)
    subst hs0
    rw [splitOnList.eq_def, dif_neg hp]
    rfl
  | succ fuel ih =>
    intro s hs
    cases s with
    | nil =>
      rw [splitOnList.eq_def, dif_neg hp]
      rfl
    | cons c cs =>
      rw [splitOnList.eq_def, dif_neg hp]
      by_cases hpre : pat.isPrefixOf (c :: cs) = true
      · simp only [pyReplaceFuel, hpre, if_true]
        have hlen : ((c :: cs).drop pat.length).length ≤ fuel := by
          simp only [List.length_drop, List.length_cons]
          simp only [List.length_cons] at hs
          have : 0 < pat.length := List.length_pos.mpr hp
          omega
        rw [ih _ hlen,
          intercalate_cons_of_ne_nil rep []
            (splitOnList_ne_nil pat ((c :: cs).drop pat.length))]
        simp
      · simp only [pyReplaceFuel, hpre, Bool.false_eq_true, if_false]
        have hlen : cs.length ≤ fuel := by
          simp only [List.length_cons] at hs
          omega
        rw [ih _ hlen]
        cases hsc : splitOnList pat cs with
        | nil => exact absurd hsc (splitOnList_ne_nil pat cs)
        | cons h t =>
          simp only [List.modifyHead]
          rw [intercalate_modifyHead]

theorem pyReplace_eq_specReplaceAll (s pat rep : String) (hp : pat ≠ "") :
    pyReplace s pat rep = specReplaceAll s pat rep := by
  have hpl : pat.toList ≠ [] := by
    intro hc
    apply hp
    have h2 : pat.toList.asString = ([] : List Char).asString := by rw [hc]
    exact h2
  unfold pyReplace specReplaceAll
  rw [if_neg (by simpa [List.isEmpty_iff] using hpl)]
  exact congrArg List.asString
    (pyReplaceFuel_eq_intercalate pat.toList rep.toList hpl s.toList.length
      s.toList le_rfl)

theorem pyReplaceFuel_qmark :
    ∀ (fuel : Nat) (s : List Char), s.length ≤ fuel →
      pyReplaceFuel ['?'] [] fuel s = s.filter (fun c => c != '?') := by
  intro fuel
  induction fuel with
  | zero =>
    intro s hs
    have hs0 : s = [] := List.length_eq_zero.mp (Nat.le_zero.mp hs)
    subst hs0
    rfl
  | succ fuel ih =>
    intro s hs
    cases s with
    | nil => rfl
    | cons c cs =>
      have hlen : cs.length ≤ fuel := by
        simp only [List.length_cons] at hs
        omega
      by_cases hc : c = '?'
      · subst hc
        have hpre : (['?'] : List Char).isPrefixOf ('?' :: cs) = true := by
          simp [List.isPrefixOf]
        simp only [pyReplaceFuel, hpre, if_true, List.length_cons,
          List.length_nil, List.drop_succ_cons, List.drop_zero, List.nil_append]
        rw [ih _ hlen]
        simp [List.filter_cons]
      · have hpre : (['?'] : List Char).isPrefixOf (c :: cs) = false := by
          simp [List.isPrefixOf, Ne.symm hc]
        simp only [pyReplaceFuel, hpre, Bool.false_eq_true, if_false]
        rw [ih _ hlen]
        simp [List.filter_cons, hc]

theorem pyReplace_qmark (s : String) :
    pyReplace s "?" "" = (s.toList.filter (fun c => c != '?')).asString := by
  unfold pyReplace
  rw [if_neg (by decide)]
  exact congrArg List.asString (pyReplaceFuel_qmark s.toList.length s.toList le_rfl)

/-- C9 (amended): for non-empty team names, `_normalize_text` equals the
spec-level pipeline that substitutes every occurrence of the team names with
`"Home"`/`"Away"`, removes every occurrence of `"Team Props - "` and then of
`"Team Props "` anywhere in the text (not only as a prefix) exactly when the
category equals `"team props"` case-insensitively, removes every literal
question mark, and trims surrounding whitespace; in particular an outcome
named with the literal home-team string comes out containing `"Home"` with a
trailing `"?"` stripped, and a marker in the middle of the label is removed. -/
theorem normalize_amended_c9 :
    (∀ (text : Option String) (home_team away_team : String)
        (category : Option String),
      home_team ≠ "" → away_team ≠ "" →
      _normalize_text text home_team away_team category
        = normalizeSpecAmended text home_team away_team category)
    ∧ _normalize_text (some "Will Barcelona win?") "Barcelona" "Atletico" none
        = "Will Home win"
    ∧ _normalize_text (some "Alpha Team Props - Beta") "H1" "A1"
        (some "team props")
      = "Alpha Beta" := by
  refine ⟨?_, by decide, by decide⟩
  intro text home_team away_team category hh ha
  cases text with
  | none => rfl
  | some t =>
    unfold _normalize_text normalizeSpecAmended
    dsimp only
    by_cases ht : t = ""
    · rw [if_pos ht, if_pos ht]
    · rw [if_neg ht, if_neg ht,
        pyReplace_eq_specReplaceAll t home_team "Home" hh,
        pyReplace_eq_specReplaceAll _ away_team "Away" ha]
      cases hcat : (match category with
        | some c => c != "" && lowerAscii c == "team props"
        | none => false) with
      | true =>
        rw [if_pos (show true = true from rfl),
          if_pos (show true = true from rfl),
          pyReplace_eq_specReplaceAll _ "Team Props - " "" (by decide),
          pyReplace_eq_specReplaceAll _ "Team Props " "" (by decide),
          pyReplace_qmark]
      | false =>
        rw [if_neg (show ¬ false = true from Bool.false_ne_true),
          if_neg (show ¬ false = true from Bool.false_ne_true),
          pyReplace_qmark]

/-- Witness for the amended C9: the non-empty team-name hypotheses discharged
at scenario 4's input. -/
theorem normalize_amended_c9_witness :
    ("Barcelona" ≠ "") ∧ ("Atletico" ≠ "")
    ∧ _normalize_text (some "Will Barcelona win?") "Barcelona" "Atletico" none
      = normalizeSpecAmended (some "Will Barcelona win?") "Barcelona" "Atletico"
        none :=
  ⟨by decide, by decide,
    normalize_amended_c9.1 (some "Will Barcelona win?") "Barcelona" "Atletico"
      none (by decide) (by decide)⟩

/-- C6: appending the two scenario snapshots to an empty wide table yields the
header `fetched_at`, `Match Odds | 1X2 | Home`, `Totals | O/U 2.5 | Over`, and
the first data row has an empty cell in the column introduced by the second
snapshot; in general a re-aligned pre-existing row has an empty cell at every
merged-header position whose column the old header lacked. -/
theorem wide_repad_c6 :
    ((match wideRun (wideRun none
        [⟨"t1", "Match Odds | 1X2 | Home", some "2.04", "Barcelona", "Atletico"⟩]
        "e")
        [⟨"t2", "Match Odds | 1X2 | Home", some "2.10", "Barcelona", "Atletico"⟩,
         ⟨"t2", "Totals | O/U 2.5 | Over", some "1.95", "Barcelona", "Atletico"⟩]
        "e" with
      | some f => (f.header, f.records)
      | none => ([], []))
      = (["fetched_at", "Match Odds | 1X2 | Home", "Totals | O/U 2.5 | Over"],
         [["t1", "2.04", ""], ["t2", "2.10", "1.95"]]))
    ∧ (∀ (oldH newH rec : List String) (j : Nat), j < newH.length →
        newH.getD j "" ∉ oldH →
        (realignRecord oldH newH rec).getD j "" = "") := by
  constructor
  · decide
  · intro oldH newH rec j hj hmem
    unfold realignRecord
    have h1 : newH[j]? = some newH[j] := List.getElem?_eq_getElem hj
    have hgd : newH.getD j "" = newH[j] := by
      rw [List.getD_eq_getElem?_getD, h1]
      rfl
    rw [hgd] at hmem
    rw [List.getD_eq_getElem?_getD, List.getElem?_map, h1]
    have h2 : oldH.indexOf? newH[j] = none := by
      rw [List.indexOf?_eq_none_iff]
      intro x hx
      intro hbeq
      exact hmem (beq_iff_eq.mp hbeq ▸ hx)
    simp [h2]

/-- Witness for C6's general re-padding conjunct at a concrete header pair. -/
theorem wide_repad_c6_witness :
    (1 < (["fetched_at", "X"] : List String).length)
    ∧ ((["fetched_at", "X"] : List String).getD 1 "" ∉ (["fetched_at"] : List String))
    ∧ (realignRecord ["fetched_at"] ["fetched_at", "X"] ["t"]).getD 1 "" = "" :=
  ⟨by decide, by decide,
    wide_repad_c6.2 ["fetched_at"] ["fetched_at", "X"] ["t"] 1 (by decide)
      (by decide)⟩

/-- Counterexample to C5 as stated: within one run the pivot sorts the new
column keys lexicographically, so a key first seen later in the rows can come
first in the header.  Here `B | m | o` is seen before `A | m | o`, yet it does
not occupy the earlier position. -/
theorem wide_header_c5_counterexample :
    (match wideRun none
        [⟨"t1", "B | m | o", some "2", "H", "A"⟩,
         ⟨"t1", "A | m | o", some "3", "H", "A"⟩] "e" with
      | some f => f.header
      | none => [])
      = ["fetched_at", "A | m | o", "B | m | o"]
    ∧ ¬ ((match wideRun none
        [⟨"t1", "B | m | o", some "2", "H", "A"⟩,
         ⟨"t1", "A | m | o", some "3", "H", "A"⟩] "e" with
      | some f => f.header
      | none => []).indexOf "B | m | o"
        < (match wideRun none
        [⟨"t1", "B | m | o", some "2", "H", "A"⟩,
         ⟨"t1", "A | m | o", some "3", "H", "A"⟩] "e" with
      | some f => f.header
      | none => []).indexOf "A | m | o") :=
  ⟨by decide, by decide⟩

theorem mem_runKeysSorted {run : List SpecialRow} {c : String}
    (h : c ∈ runKeysSorted run) : ∃ r ∈ run, r.column_key = c := by
  unfold runKeysSorted at h
  have h1 := (List.perm_insertionSort pyStrLe
    ((run.map (·.column_key)).dedup)).mem_iff.mp h
  rw [List.mem_dedup] at h1
  obtain ⟨r, hr, he⟩ := List.mem_map.mp h1
  exact ⟨r, hr, he⟩

theorem nodup_runKeysSorted (run : List SpecialRow) :
    (runKeysSorted run).Nodup :=
  ((List.perm_insertionSort pyStrLe _).nodup_iff).mpr (List.nodup_dedup _)

theorem pivot_headers_eq (r0 : SpecialRow) (rrest : List SpecialRow) :
    (pivot_outcomes_wide (r0 :: rrest)).1
      = "fetched_at" :: runKeysSorted (r0 :: rrest) := rfl

theorem nodup_pivot_headers {run : List SpecialRow}
    (hk : ∀ r ∈ run, r.column_key ≠ "fetched_at") :
    ("fetched_at" :: runKeysSorted run).Nodup := by
  rw [List.nodup_cons]
  refine ⟨?_, nodup_runKeysSorted run⟩
  intro hmem
  obtain ⟨r, hr, he⟩ := mem_runKeysSorted hmem
  exact hk r hr he

theorem pivot_header_filter {run : List SpecialRow} (acc : List String)
    (hk : ∀ r ∈ run, r.column_key ≠ "fetched_at") :
    ("fetched_at" :: runKeysSorted run).filter
        (fun c => ! ("fetched_at" :: acc).contains c)
      = (runKeysSorted run).filter (fun c => ! acc.contains c) := by
  rw [List.filter_cons]
  have hhead : (! (("fetched_at" :: acc).contains "fetched_at")) = false := by
    simp [List.elem_eq_mem]
  rw [hhead]
  simp only [Bool.false_eq_true, if_false]
  apply List.filter_congr
  intro c hc
  obtain ⟨r, hr, he⟩ := mem_runKeysSorted hc
  have hne : c ≠ "fetched_at" := he ▸ hk r hr
  simp [List.elem_eq_mem, hne]

theorem append_wide_some_header (f0 : CsvFile) (r0 : SpecialRow)
    (rrest : List SpecialRow) (wide : List String × List (List (Option String)))
    (eid : String) (h : String) (hs : List String) (hw : wide.1 = h :: hs) :
    ∃ f1, _append_wide_csv (some f0) wide (r0 :: rrest) eid = some f1
      ∧ f1.header = wide.1.foldl
          (fun acc x => if acc.contains x then acc else acc ++ [x]) f0.header := by
  obtain ⟨w1, w2⟩ := wide
  simp only at hw
  subst hw
  exact ⟨_, rfl, rfl⟩

theorem append_wide_none_header (r0 : SpecialRow) (rrest : List SpecialRow)
    (wide : List String × List (List (Option String))) (eid : String)
    (h : String) (hs : List String) (hw : wide.1 = h :: hs) :
    ∃ f1, _append_wide_csv none wide (r0 :: rrest) eid = some f1
      ∧ f1.header = wide.1.foldl
          (fun acc x => if acc.contains x then acc else acc ++ [x]) [] := by
  obtain ⟨w1, w2⟩ := wide
  simp only at hw
  subst hw
  exact ⟨_, rfl, rfl⟩

theorem wide_header_merge (run : List SpecialRow) (acc : List String)
    (hk : ∀ r ∈ run, r.column_key ≠ "fetched_at") :
    ("fetched_at" :: runKeysSorted run).foldl
        (fun hs h => if hs.contains h then hs else hs ++ [h]) ("fetched_at" :: acc)
      = "fetched_at"
        :: (acc ++ (runKeysSorted run).filter (fun c => ! acc.contains c)) := by
  rw [foldl_append_not_contains (nodup_pivot_headers hk),
    pivot_header_filter acc hk]
  rfl

theorem wide_header_merge_none (run : List SpecialRow)
    (hk : ∀ r ∈ run, r.column_key ≠ "fetched_at") :
    ("fetched_at" :: runKeysSorted run).foldl
        (fun hs h => if hs.contains h then hs else hs ++ [h]) []
      = "fetched_at" :: runKeysSorted run := by
  rw [foldl_append_not_contains (nodup_pivot_headers hk)]
  simp [List.elem_eq_mem]

theorem wideRun_step_some (f0 : CsvFile) (acc : List String)
    (run : List SpecialRow) (eid : String)
    (hf0 : f0.header = "fetched_at" :: acc) (hrun : run ≠ [])
    (hk : ∀ r ∈ run, r.column_key ≠ "fetched_at") :
    ∃ f1, wideRun (some f0) run eid = some f1
      ∧ f1.header = "fetched_at"
          :: (acc ++ (runKeysSorted run).filter (fun c => ! acc.contains c)) := by
  obtain ⟨r0, rrest, rfl⟩ := List.exists_cons_of_ne_nil hrun
  obtain ⟨f1, heq, hh⟩ := append_wide_some_header f0 r0 rrest
    (pivot_outcomes_wide (r0 :: rrest)) eid _ _ (pivot_headers_eq r0 rrest)
  refine ⟨f1, heq, ?_⟩
  rw [hh, pivot_headers_eq, hf0, wide_header_merge _ acc hk]

theorem wideRun_step_none (run : List SpecialRow) (eid : String)
    (hrun : run ≠ []) (hk : ∀ r ∈ run, r.column_key ≠ "fetched_at") :
    ∃ f1, wideRun none run eid = some f1
      ∧ f1.header = "fetched_at" :: runKeysSorted run := by
  obtain ⟨r0, rrest, rfl⟩ := List.exists_cons_of_ne_nil hrun
  obtain ⟨f1, heq, hh⟩ := append_wide_none_header r0 rrest
    (pivot_outcomes_wide (r0 :: rrest)) eid _ _ (pivot_headers_eq r0 rrest)
  refine ⟨f1, heq, ?_⟩
  rw [hh, pivot_headers_eq, wide_header_merge_none _ hk]

theorem wideFold_inv (eid : String) :
    ∀ (runs : List (List SpecialRow)) (acc : List String) (f0 : CsvFile),
      f0.header = "fetched_at" :: acc →
      (∀ run ∈ runs, run ≠ []) →
      (∀ run ∈ runs, ∀ r ∈ run, r.column_key ≠ "fetched_at") →
      ∃ f, runs.foldl (fun s run => wideRun s run eid) (some f0) = some f
        ∧ f.header = "fetched_at" :: runs.foldl
            (fun a run => a ++ (runKeysSorted run).filter (fun c => ! a.contains c))
            acc := by
  intro runs
  induction runs with
  | nil => exact fun acc f0 h _ _ => ⟨f0, rfl, h⟩
  | cons run rest ih =>
    intro acc f0 hf0 hne hk
    obtain ⟨f1, hstep, hh1⟩ := wideRun_step_some f0 acc run eid hf0
      (hne run (by simp)) (hk run (by simp))
    obtain ⟨f2, hrest, hh2⟩ := ih
      (acc ++ (runKeysSorted run).filter (fun c => ! acc.contains c)) f1 hh1
      (fun r hr => hne r (by simp [hr])) (fun r hr => hk r (by simp [hr]))
    refine ⟨f2, ?_, ?_⟩
    · rw [List.foldl_cons, hstep, hrest]
    · rw [hh2, List.foldl_cons]

theorem headerAccum_cons (run : List SpecialRow) (rest : List (List SpecialRow)) :
    headerAccum (run :: rest)
      = rest.foldl
          (fun a run => a ++ (runKeysSorted run).filter (fun c => ! a.contains c))
          (runKeysSorted run) := by
  unfold headerAccum
  rw [List.foldl_cons]
  congr 1
  simp [List.elem_eq_mem]

/-- C5 (amended): across every sequence of wide appends, the persisted header
is the fetch-time key followed by the column keys in first-appearance-run
order: each run appends, after all columns of earlier runs, its distinct new
column keys in lexicographically sorted order (not in the order the outcomes
were first seen within the run). -/
theorem wide_header_c5_amended (runs : List (List SpecialRow)) (eid : String)
    (hne : ∀ run ∈ runs, run ≠ [])
    (hkeys : ∀ run ∈ runs, ∀ r ∈ run, r.column_key ≠ "fetched_at") :
    (runs.foldl (fun s run => wideRun s run eid) none = none → runs = [])
    ∧ (∀ f, runs.foldl (fun s run => wideRun s run eid) none = some f →
        f.header = "fetched_at" :: headerAccum runs) := by
  cases runs with
  | nil => exact ⟨fun _ => rfl, fun f h => by cases h⟩
  | cons run rest =>
    obtain ⟨f1, hstep, hh1⟩ := wideRun_step_none run eid (hne run (by simp))
      (hkeys run (by simp))
    have hfold : (run :: rest).foldl (fun s run => wideRun s run eid) none
        = rest.foldl (fun s run => wideRun s run eid) (some f1) := by
      rw [List.foldl_cons, hstep]
    obtain ⟨f2, hfold2, hh2⟩ := wideFold_inv eid rest (runKeysSorted run) f1 hh1
      (fun r hr => hne r (by simp [hr])) (fun r hr => hkeys r (by simp [hr]))
    constructor
    · intro h
      rw [hfold, hfold2] at h
      cases h
    · intro f h
      rw [hfold, hfold2] at h
      injection h with h
      subst h
      rw [hh2, headerAccum_cons]

/-- Witness for the amended C5: the run non-emptiness and key hypotheses
discharged at a two-run sequence. -/
theorem wide_header_c5_amended_witness :
    (∀ run ∈ [[(⟨"t1", "B", some "2", "H", "A"⟩ : SpecialRow)],
        [(⟨"t2", "B", some "4", "H", "A"⟩ : SpecialRow),
         (⟨"t2", "A", some "3", "H", "A"⟩ : SpecialRow)]], run ≠ [])
    ∧ (∀ run ∈ [[(⟨"t1", "B", some "2", "H", "A"⟩ : SpecialRow)],
        [(⟨"t2", "B", some "4", "H", "A"⟩ : SpecialRow),
         (⟨"t2", "A", some "3", "H", "A"⟩ : SpecialRow)]],
        ∀ r ∈ run, r.column_key ≠ "fetched_at")
    ∧ ((([[(⟨"t1", "B", some "2", "H", "A"⟩ : SpecialRow)],
        [(⟨"t2", "B", some "4", "H", "A"⟩ : SpecialRow),
         (⟨"t2", "A", some "3", "H", "A"⟩ : SpecialRow)]]).foldl
          (fun s run => wideRun s run "e") none = none →
        ([[(⟨"t1", "B", some "2", "H", "A"⟩ : SpecialRow)],
        [(⟨"t2", "B", some "4", "H", "A"⟩ : SpecialRow),
         (⟨"t2", "A", some "3", "H", "A"⟩ : SpecialRow)]]) = [])
      ∧ (∀ f, (([[(⟨"t1", "B", some "2", "H", "A"⟩ : SpecialRow)],
        [(⟨"t2", "B", some "4", "H", "A"⟩ : SpecialRow),
         (⟨"t2", "A", some "3", "H", "A"⟩ : SpecialRow)]]).foldl
          (fun s run => wideRun s run "e") none = some f →
        f.header = "fetched_at" :: headerAccum
          [[(⟨"t1", "B", some "2", "H", "A"⟩ : SpecialRow)],
           [(⟨"t2", "B", some "4", "H", "A"⟩ : SpecialRow),
            (⟨"t2", "A", some "3", "H", "A"⟩ : SpecialRow)]]))) :=
  ⟨by decide, by decide,
    wide_header_c5_amended
      [[(⟨"t1", "B", some "2", "H", "A"⟩ : SpecialRow)],
       [(⟨"t2", "B", some "4", "H", "A"⟩ : SpecialRow),
        (⟨"t2", "A", some "3", "H", "A"⟩ : SpecialRow)]] "e"
      (by decide) (by decide)⟩

/-- Counterexample to C3 as stated: the header merge consults only the FIRST
new row's keys, so a field appearing only in a later new row (`"b"`) is a
field of the new rows yet is never appended to the header, on the first run or
on the re-run.  Both rows carry `home_team` and `away_team`, so the source's
comment-line lookups succeed and the real append produces exactly this
header. -/
theorem long_append_c3_counterexample :
    (match _append_long_csv
        (_append_long_csv none
          [[("home_team", "H"), ("away_team", "A"), ("a", "1")],
           [("home_team", "H"), ("away_team", "A"), ("b", "2")]] "e")
        [[("home_team", "H"), ("away_team", "A"), ("a", "1")],
         [("home_team", "H"), ("away_team", "A"), ("b", "2")]] "e" with
      | some f => f.header
      | none => []) = ["home_team", "away_team", "a"]
    ∧ "b" ∈ ([[("home_team", "H"), ("away_team", "A"), ("a", "1")],
        [("home_team", "H"), ("away_team", "A"), ("b", "2")]] :
        List (List (String × String))).flatMap (fun r => r.map Prod.fst)
    ∧ "b" ∉ (match _append_long_csv
        (_append_long_csv none
          [[("home_team", "H"), ("away_team", "A"), ("a", "1")],
           [("home_team", "H"), ("away_team", "A"), ("b", "2")]] "e")
        [[("home_team", "H"), ("away_team", "A"), ("a", "1")],
         [("home_team", "H"), ("away_team", "A"), ("b", "2")]] "e" with
      | some f => f.header
      | none => []) :=
  ⟨by decide, by decide, by decide⟩

theorem foldl_insert_no_new {l init : List String} (h : ∀ x ∈ l, x ∈ init) :
    l.foldl (fun hs h => if hs.contains h then hs else hs ++ [h]) init = init := by
  induction l with
  | nil => rfl
  | cons c t ih =>
    rw [List.foldl_cons]
    have hc : init.contains c = true := by
      simpa [List.elem_eq_mem] using h c (by simp)
    rw [if_pos hc]
    exact ih (fun x hx => h x (by simp [hx]))

theorem decodeRecord_map_snd (h rec : List String) (hlen : rec.length = h.length) :
    (decodeRecord h rec).map Prod.snd = rec := by
  induction h generalizing rec with
  | nil =>
    cases rec with
    | nil => rfl
    | cons r t => simp at hlen
  | cons hd hs ih =>
    cases rec with
    | nil => simp at hlen
    | cons r rect =>
      simp only [decodeRecord, List.headD, List.tail, List.map_cons]
      rw [ih rect (by simpa using hlen)]

theorem encodeRecord_decodeRecord (h : List String) (rec : List String)
    (hnd : h.Nodup) (hlen : rec.length = h.length) :
    encodeRecord h (decodeRecord h rec) = rec := by
  induction h generalizing rec with
  | nil =>
    cases rec with
    | nil => rfl
    | cons r t => simp at hlen
  | cons hd hs ih =>
    cases rec with
    | nil => simp at hlen
    | cons r rect =>
      rw [List.nodup_cons] at hnd
      show ((((hd, (r :: rect).headD "")
            :: decodeRecord hs (r :: rect).tail).lookup hd).getD "")
          :: hs.map (fun x => ((((hd, (r :: rect).headD "")
            :: decodeRecord hs (r :: rect).tail).lookup x).getD "")) = r :: rect
      simp only [List.headD, List.tail]
      have hhead : (((hd, r) :: decodeRecord hs rect).lookup hd) = some r := by
        simp [List.lookup_cons]
      have htail : hs.map
            (fun x => ((((hd, r) :: decodeRecord hs rect).lookup x).getD ""))
          = hs.map (fun x => (((decodeRecord hs rect).lookup x).getD "")) := by
        apply List.map_congr_left
        intro x hx
        have hxh : (x == hd) = false :=
          beq_eq_false_iff_ne.mpr (fun he => hnd.1 (he ▸ hx))
        simp [List.lookup_cons, hxh]
      rw [hhead, htail]
      have := ih rect hnd.2 (by simpa using hlen)
      unfold encodeRecord at this
      rw [this]
      rfl

theorem append_long_cons (f0 : CsvFile) (r0 : List (String × String))
    (rest : List (List (String × String))) (eid : String) :
    _append_long_csv (some f0) (r0 :: rest) eid
      = some ⟨some ("# Match: " ++ ((r0.lookup "home_team").getD "") ++ " vs "
            ++ ((r0.lookup "away_team").getD "") ++ " (event " ++ eid ++ ")"),
          f0.header.foldl (fun hs h => if hs.contains h then hs else hs ++ [h])
            ((r0.map Prod.fst).foldl
              (fun hs h => if hs.contains h then hs else hs ++ [h])
              (if f0.header.isEmpty then r0.map Prod.fst else f0.header)),
          (((f0.records.map (decodeRecord f0.header)).filter
              (fun r => r.any (fun kv => kv.2 != ""))).map
            (fun r => encodeRecord
              (f0.header.foldl
                (fun hs h => if hs.contains h then hs else hs ++ [h])
                ((r0.map Prod.fst).foldl
                  (fun hs h => if hs.contains h then hs else hs ++ [h])
                  (if f0.header.isEmpty then r0.map Prod.fst else f0.header))) r))
            ++ (r0 :: rest).map
              (fun r => encodeRecord
                (f0.header.foldl
                  (fun hs h => if hs.contains h then hs else hs ++ [h])
                  ((r0.map Prod.fst).foldl
                    (fun hs h => if hs.contains h then hs else hs ++ [h])
                    (if f0.header.isEmpty then r0.map Prod.fst
                      else f0.header))) r)⟩ := rfl

/-- C3 (amended): on rows whose first row carries both team fields (where the
source's comment-line lookups succeed), the long-form append preserves the
existing header order and appends, at the end, any field of the FIRST new row
not already in the header; and re-running it with the same new rows against an
already-merged well-formed file (no duplicate header fields, first-row fields
already merged, records aligned to the header and not entirely empty) keeps
the comment and header identical, keeps every previously written record
unchanged, and appends exactly one more encoded copy of each new row. -/
theorem long_append_c3_amended :
    (∀ (f0 : CsvFile) (r0 : List (String × String))
        (rest : List (List (String × String))) (eid : String),
      "home_team" ∈ r0.map Prod.fst → "away_team" ∈ r0.map Prod.fst →
      f0.header ≠ [] → (r0.map Prod.fst).Nodup →
      ∀ f', _append_long_csv (some f0) (r0 :: rest) eid = some f' →
        f'.header = f0.header
          ++ (r0.map Prod.fst).filter (fun k => ! f0.header.contains k))
    ∧ (∀ (f1 : CsvFile) (r0 : List (String × String))
        (rest : List (List (String × String))) (eid : String),
      "home_team" ∈ r0.map Prod.fst → "away_team" ∈ r0.map Prod.fst →
      f1.header.Nodup → f1.header ≠ [] →
      (∀ k ∈ r0.map Prod.fst, k ∈ f1.header) →
      (∀ rec ∈ f1.records, rec.length = f1.header.length) →
      (∀ rec ∈ f1.records, ∃ c ∈ rec, c ≠ "") →
      _append_long_csv (some f1) (r0 :: rest) eid
        = some ⟨some ("# Match: " ++ ((r0.lookup "home_team").getD "") ++ " vs "
              ++ ((r0.lookup "away_team").getD "") ++ " (event " ++ eid ++ ")"),
            f1.header,
            f1.records
              ++ (r0 :: rest).map (fun r => encodeRecord f1.header r)⟩) := by
  constructor
  · intro f0 r0 rest eid _hhome _haway hne hnd0 f' hf'
    rw [append_long_cons] at hf'
    injection hf' with hf'
    subst hf'
    have hie : f0.header.isEmpty = false :=
      Bool.eq_false_iff.mpr (fun hc => hne (List.isEmpty_iff.mp hc))
    show f0.header.foldl (fun hs h => if hs.contains h then hs else hs ++ [h])
        ((r0.map Prod.fst).foldl
          (fun hs h => if hs.contains h then hs else hs ++ [h])
          (if f0.header.isEmpty then r0.map Prod.fst else f0.header))
      = f0.header ++ (r0.map Prod.fst).filter (fun k => ! f0.header.contains k)
    rw [hie]
    simp only [Bool.false_eq_true, if_false]
    rw [foldl_append_not_contains hnd0]
    exact foldl_insert_no_new
      (fun x hx => List.mem_append_left _ hx)
  · intro f1 r0 rest eid _hhome _haway hnd hne hsub hlen htruthy
    rw [append_long_cons]
    have hie : f1.header.isEmpty = false :=
      Bool.eq_false_iff.mpr (fun hc => hne (List.isEmpty_iff.mp hc))
    rw [hie]
    simp only [Bool.false_eq_true, if_false]
    rw [foldl_insert_no_new (fun x hx => hsub x hx),
      foldl_insert_no_new (fun x hx => hx)]
    have hfilter : (f1.records.map (decodeRecord f1.header)).filter
          (fun r => r.any (fun kv => kv.2 != ""))
        = f1.records.map (decodeRecord f1.header) := by
      apply List.filter_eq_self.mpr
      intro m hm
      obtain ⟨rec, hrec, rfl⟩ := List.mem_map.mp hm
      obtain ⟨c, hc, hcne⟩ := htruthy rec hrec
      have hsnd : c ∈ (decodeRecord f1.header rec).map Prod.snd := by
        rw [decodeRecord_map_snd _ _ (hlen rec hrec)]
        exact hc
      obtain ⟨kv, hkv, hkve⟩ := List.mem_map.mp hsnd
      rw [List.any_eq_true]
      exact ⟨kv, hkv, by simp [hkve, hcne]⟩
    rw [hfilter]
    have hmapid : (f1.records.map (decodeRecord f1.header)).map
          (fun r => encodeRecord f1.header r) = f1.records := by
      rw [List.map_map]
      calc f1.records.map (encodeRecord f1.header ∘ decodeRecord f1.header)
          = f1.records.map id :=
            List.map_congr_left
              (fun rec hrec => encodeRecord_decodeRecord _ _ hnd (hlen rec hrec))
        _ = f1.records := List.map_id _
    rw [hmapid]

/-- Witness for the amended C3: the well-formedness hypotheses discharged at a
concrete already-merged file and a single new row. -/
theorem long_append_c3_amended_witness :
    ("home_team" ∈ ([("home_team", "H"), ("away_team", "A"), ("x", "2")] :
        List (String × String)).map Prod.fst)
    ∧ ("away_team" ∈ ([("home_team", "H"), ("away_team", "A"), ("x", "2")] :
        List (String × String)).map Prod.fst)
    ∧ ((["home_team", "away_team", "x"] : List String).Nodup)
    ∧ ((["home_team", "away_team", "x"] : List String) ≠ [])
    ∧ (∀ k ∈ ([("home_team", "H"), ("away_team", "A"), ("x", "2")] :
        List (String × String)).map Prod.fst,
        k ∈ (["home_team", "away_team", "x"] : List String))
    ∧ _append_long_csv
        (some ⟨some "# Match: H vs A (event e)",
          ["home_team", "away_team", "x"], [["H", "A", "1"]]⟩)
        [[("home_team", "H"), ("away_team", "A"), ("x", "2")]] "e"
      = some ⟨some ("# Match: "
            ++ ((([("home_team", "H"), ("away_team", "A"), ("x", "2")] :
              List (String × String)).lookup "home_team").getD "") ++ " vs "
            ++ ((([("home_team", "H"), ("away_team", "A"), ("x", "2")] :
              List (String × String)).lookup "away_team").getD "")
            ++ " (event " ++ "e" ++ ")"),
          (⟨some "# Match: H vs A (event e)",
            ["home_team", "away_team", "x"], [["H", "A", "1"]]⟩ : CsvFile).header,
          (⟨some "# Match: H vs A (event e)",
            ["home_team", "away_team", "x"], [["H", "A", "1"]]⟩ : CsvFile).records
            ++ ([[("home_team", "H"), ("away_team", "A"), ("x", "2")]] :
              List (List (String × String))).map
              (fun r => encodeRecord
                (⟨some "# Match: H vs A (event e)",
                  ["home_team", "away_team", "x"],
                  [["H", "A", "1"]]⟩ : CsvFile).header r)⟩ :=
  ⟨by decide, by decide, by decide, by decide, by decide,
    long_append_c3_amended.2
      ⟨some "# Match: H vs A (event e)", ["home_team", "away_team", "x"],
        [["H", "A", "1"]]⟩
      [("home_team", "H"), ("away_team", "A"), ("x", "2")] [] "e"
      (by decide) (by decide) (by decide) (by decide) (by decide) (by decide)
      (by decide)⟩
